import Mathlib

/-!
Verification of the Tello-Edu obstacle-detection navigation core.

This file gives a shallow embedding, in Lean 4, of the navigation core of the
repository (grid-graph builder, A*-based path planner, five-point safe-direction
selector, sector-based coarse direction check, depth cache, motion-command
arithmetic, and the adaptive control loop of `main.run`), and proves or refutes
the specification claims about it.

Modelling conventions:
  * Python floats are modelled as exact rationals (`ℚ`) wherever the source
    computes with `+ - * / % round int min max`; trigonometric code
    (`math.atan2`, `math.hypot`, `math.degrees`) is modelled over `ℝ`.
  * Python dicts are modelled as insertion-ordered association lists with
    replace-on-existing-key semantics, mirroring CPython's ordered dicts.
  * Python `for` loops are modelled as folds over the corresponding ranges.
  * fallible operations return `Option` / `Except`.
-/

/-- Python `int(x)`: truncation toward zero. -/
def pyTrunc (q : ℚ) : ℤ := if q < 0 then ⌈q⌉ else ⌊q⌋

/-- Python `round(x)` on a float value: round half to even (banker's rounding). -/
def pyRound (q : ℚ) : ℤ :=
  let f : ℤ := ⌊q⌋
  let r : ℚ := q - f
  if r < 1/2 then f
  else if 1/2 < r then f + 1
  else if Even f then f else f + 1

/-- Python `a % b` on floats (`b > 0` in all uses): remainder with the sign of `b`. -/
def pyMod (a b : ℚ) : ℚ := a - b * ⌊a / b⌋

/-- `np.clip(x, lo, hi)`: values below `lo` map to `lo`, above `hi` to `hi`. -/
def clipQ (x lo hi : ℚ) : ℚ := min (max x lo) hi

/-! ## direction_navigator.py -/

/-- The `Direction` enum of `drone_navigator/direction_navigator.py`. -/
inductive Direction where
  | CENTER
  | UP
  | RIGHT
  | LEFT
  | DOWN
  | BLOCK
deriving DecidableEq, Repr

/-- A depth frame: `h × w` array of scalars, indexed `data row col`
(`depth_map[y, x]` in the source). -/
structure DepthMap where
  h : ℕ
  w : ℕ
  data : ℕ → ℕ → ℚ

/-- The inner helper `to_pixel` of `choose_safe_direction`, one axis:
`int(np.clip((offset * 0.5 + 0.5) * (dim - 1), 0, dim - 1))`. -/
def toPixelCoord (dim : ℕ) (offset : ℚ) : ℤ :=
  pyTrunc (clipQ ((offset * (1/2) + 1/2) * ((dim : ℚ) - 1)) 0 ((dim : ℚ) - 1))

/-- The default `sample_offsets` dict of `choose_safe_direction`, in insertion
order: left, center, right, top, bottom, each `(ox, oy)`. -/
def defaultOffsets : List (String × (ℚ × ℚ)) :=
  [("left", (-3/10, 0)), ("center", (0, 0)), ("right", (3/10, 0)),
   ("top", (0, -3/10)), ("bottom", (0, 3/10))]

/-- Sample the depth map at one offset: `depth_map[y, x]` with
`x, y = to_pixel(offset)`. -/
def samplePoint (d : DepthMap) (off : ℚ × ℚ) : ℚ :=
  d.data (toPixelCoord d.h off.2).toNat (toPixelCoord d.w off.1).toNat

/-- The `status` dict of `choose_safe_direction`: for each named offset,
whether `depth_value >= threshold` ("clear"). Insertion order preserved. -/
def computeStatus (d : DepthMap) (threshold : ℚ) (offs : List (String × (ℚ × ℚ))) :
    List (String × Bool) :=
  offs.map (fun p => (p.1, decide (threshold ≤ samplePoint d p.2)))

/-- `status.get(name, False)` on the status dict. -/
def statusGet (st : List (String × Bool)) (k : String) : Bool :=
  match st.find? (fun p => p.1 == k) with
  | some p => p.2
  | none => false

/-- The `mapping.get(sole, Direction.BLOCK)` lookup in rule 2 of
`choose_safe_direction`. -/
def mappingGet (s : String) : Direction :=
  if s = "center" then .CENTER
  else if s = "top" then .UP
  else if s = "right" then .RIGHT
  else if s = "left" then .LEFT
  else if s = "bottom" then .DOWN
  else .BLOCK

/-- The arbitration cascade of `choose_safe_direction` (source lines 49-88),
operating on the computed status dict. -/
def arbitrate (st : List (String × Bool)) : Direction :=
  if statusGet st "center" then .CENTER
  else
    let clear := (st.filter (fun p => p.2)).map (fun p => p.1)
    if clear.length = 1 then mappingGet (clear.headD "")
    else if (!statusGet st "center") &&
        (["left", "right", "top", "bottom"].all (fun o => statusGet st o)) then .UP
    else if (!statusGet st "top") && (!statusGet st "center") &&
        (!statusGet st "bottom") then .RIGHT
    else if statusGet st "center" then .CENTER
    else if statusGet st "top" then .UP
    else if statusGet st "right" then .RIGHT
    else if statusGet st "left" then .LEFT
    else if statusGet st "bottom" then .DOWN
    else .BLOCK

/-- `choose_safe_direction(depth_map, threshold, sample_offsets)`. -/
def chooseSafeDirectionWith (d : DepthMap) (threshold : ℚ)
    (offs : List (String × (ℚ × ℚ))) : Direction × List (String × Bool) :=
  let st := computeStatus d threshold offs
  (arbitrate st, st)

/-- `choose_safe_direction(depth_map, threshold)` with the default offsets. -/
def chooseSafeDirection (d : DepthMap) (threshold : ℚ) :
    Direction × List (String × Bool) :=
  chooseSafeDirectionWith d threshold defaultOffsets

/-- A depth frame whose every pixel reads 0 (everything nearer than any
positive threshold, i.e. every sample blocked). -/
def allZeroDepth : DepthMap := ⟨11, 11, fun _ _ => 0⟩

/-- Helper: the arbitration cascade on the five default-named statuses, as a
function of the five booleans. -/
def arbitrate5 (bl bc br bt bb : Bool) : Direction :=
  arbitrate [("left", bl), ("center", bc), ("right", br), ("top", bt), ("bottom", bb)]

lemma computeStatus_default (d : DepthMap) (t : ℚ) :
    computeStatus d t defaultOffsets =
      [("left", decide (t ≤ samplePoint d (-3/10, 0))),
       ("center", decide (t ≤ samplePoint d (0, 0))),
       ("right", decide (t ≤ samplePoint d (3/10, 0))),
       ("top", decide (t ≤ samplePoint d (0, -3/10))),
       ("bottom", decide (t ≤ samplePoint d (0, 3/10)))] := rfl

lemma arbitrate5_allBlocked :
    ∀ bl bc br bt bb : Bool, bl = false → bc = false → br = false → bt = false →
      bb = false → arbitrate5 bl bc br bt bb = Direction.RIGHT := by decide

lemma arbitrate5_center_iff :
    ∀ bl bc br bt bb : Bool,
      (arbitrate5 bl bc br bt bb = Direction.CENTER ↔ bc = true) := by decide

lemma statusGet_default (d : DepthMap) (t : ℚ) :
    statusGet (computeStatus d t defaultOffsets) "left"
        = decide (t ≤ samplePoint d (-3/10, 0)) ∧
      statusGet (computeStatus d t defaultOffsets) "center"
        = decide (t ≤ samplePoint d (0, 0)) ∧
      statusGet (computeStatus d t defaultOffsets) "right"
        = decide (t ≤ samplePoint d (3/10, 0)) ∧
      statusGet (computeStatus d t defaultOffsets) "top"
        = decide (t ≤ samplePoint d (0, -3/10)) ∧
      statusGet (computeStatus d t defaultOffsets) "bottom"
        = decide (t ≤ samplePoint d (0, 3/10)) := by
  refine ⟨rfl, rfl, rfl, rfl, rfl⟩

/-- C1 (counterexample): on an all-zero depth frame with threshold 1/2 every
one of the five default samples is blocked, yet `choose_safe_direction`
returns `RIGHT` (rule 4 of the cascade fires), not `BLOCK`. -/
theorem chooseSafeDirection_allBlocked_is_RIGHT_not_BLOCK :
    (statusGet (chooseSafeDirection allZeroDepth (1/2)).2 "left" = false ∧
     statusGet (chooseSafeDirection allZeroDepth (1/2)).2 "center" = false ∧
     statusGet (chooseSafeDirection allZeroDepth (1/2)).2 "right" = false ∧
     statusGet (chooseSafeDirection allZeroDepth (1/2)).2 "top" = false ∧
     statusGet (chooseSafeDirection allZeroDepth (1/2)).2 "bottom" = false) ∧
    (chooseSafeDirection allZeroDepth (1/2)).1 = Direction.RIGHT ∧
    Direction.RIGHT ≠ Direction.BLOCK := by with_unfolding_all decide

/-- C1 (amended): for every depth frame and threshold, if all five default
samples are blocked then `choose_safe_direction` returns `RIGHT` (the
"top, center, bottom blocked" rule fires before the final `BLOCK` fallback). -/
theorem chooseSafeDirection_allBlocked (d : DepthMap) (t : ℚ)
    (hl : statusGet (chooseSafeDirection d t).2 "left" = false)
    (hc : statusGet (chooseSafeDirection d t).2 "center" = false)
    (hr : statusGet (chooseSafeDirection d t).2 "right" = false)
    (ht : statusGet (chooseSafeDirection d t).2 "top" = false)
    (hb : statusGet (chooseSafeDirection d t).2 "bottom" = false) :
    (chooseSafeDirection d t).1 = Direction.RIGHT := by
  have h := statusGet_default d t
  have : (chooseSafeDirection d t).1 =
      arbitrate5 (decide (t ≤ samplePoint d (-3/10, 0)))
        (decide (t ≤ samplePoint d (0, 0)))
        (decide (t ≤ samplePoint d (3/10, 0)))
        (decide (t ≤ samplePoint d (0, -3/10)))
        (decide (t ≤ samplePoint d (0, 3/10))) := rfl
  rw [this]
  exact arbitrate5_allBlocked _ _ _ _ _
    (h.1 ▸ hl) (h.2.1 ▸ hc) (h.2.2.1 ▸ hr) (h.2.2.2.1 ▸ ht) (h.2.2.2.2 ▸ hb)

/-- Witness for `chooseSafeDirection_allBlocked` at the all-zero frame. -/
theorem chooseSafeDirection_allBlocked_witness :
    (chooseSafeDirection allZeroDepth (1/2)).1 = Direction.RIGHT :=
  chooseSafeDirection_allBlocked allZeroDepth (1/2)
    (by with_unfolding_all decide) (by with_unfolding_all decide)
    (by with_unfolding_all decide) (by with_unfolding_all decide)
    (by with_unfolding_all decide)

/-- C10: with the default sample offsets, `choose_safe_direction` returns
`CENTER` if and only if the center sample is clear: rule 1 fires when it is,
and no later rule of the cascade can produce `CENTER` when it is blocked. -/
theorem chooseSafeDirection_center_iff (d : DepthMap) (t : ℚ) :
    (chooseSafeDirection d t).1 = Direction.CENTER ↔
      statusGet (chooseSafeDirection d t).2 "center" = true := by
  have h := statusGet_default d t
  have hv : (chooseSafeDirection d t).1 =
      arbitrate5 (decide (t ≤ samplePoint d (-3/10, 0)))
        (decide (t ≤ samplePoint d (0, 0)))
        (decide (t ≤ samplePoint d (3/10, 0)))
        (decide (t ≤ samplePoint d (0, -3/10)))
        (decide (t ≤ samplePoint d (0, 3/10))) := rfl
  rw [hv, (show (chooseSafeDirection d t).2 = computeStatus d t defaultOffsets from rfl),
    h.2.1]
  exact arbitrate5_center_iff _ _ _ _ _

/-- The spec's sampling formula for one axis (§4.3): "mapped to nearest pixel
by `clip(round((offset·0.5+0.5)·(dim−1)), 0, dim−1)`" — round to nearest,
then clip, as an integer computation. -/
def toPixelCoordSpec (dim : ℕ) (offset : ℚ) : ℤ :=
  min (max (round ((offset * (1/2) + 1/2) * ((dim : ℚ) - 1))) 0) ((dim : ℤ) - 1)

/-- C5 (counterexample): for width 24 and offset 0.3 the position is
`0.65 · 23 = 14.95`; the source truncates to pixel 14 while the claimed
nearest-pixel formula gives 15. -/
theorem toPixelCoord_not_nearest :
    toPixelCoord 24 (3/10) = 14 ∧ toPixelCoordSpec 24 (3/10) = 15 ∧
      toPixelCoord 24 (3/10) ≠ toPixelCoordSpec 24 (3/10) := by
  with_unfolding_all decide

/-- C5 (amended): the sampled pixel coordinate is the clipped position
truncated toward zero — equivalently its floor, as the clipped value is
non-negative — and it always lies within `[0, dim−1]`; it is not in general
the nearest pixel. -/
theorem toPixelCoord_floor_clip (dim : ℕ) (offset : ℚ) (hdim : 1 ≤ dim) :
    toPixelCoord dim offset =
        ⌊clipQ ((offset * (1/2) + 1/2) * ((dim : ℚ) - 1)) 0 ((dim : ℚ) - 1)⌋ ∧
      0 ≤ toPixelCoord dim offset ∧ toPixelCoord dim offset ≤ (dim : ℤ) - 1 := by
  have hd1 : (0 : ℚ) ≤ (dim : ℚ) - 1 := by
    have : (1 : ℚ) ≤ (dim : ℚ) := by exact_mod_cast hdim
    linarith
  set q : ℚ := clipQ ((offset * (1/2) + 1/2) * ((dim : ℚ) - 1)) 0 ((dim : ℚ) - 1) with hq
  have hq0 : 0 ≤ q := by
    rw [hq]
    unfold clipQ
    exact le_min (le_max_right _ _) hd1
  have hqhi : q ≤ (dim : ℚ) - 1 := by
    rw [hq]
    unfold clipQ
    exact min_le_right _ _
  have htr : toPixelCoord dim offset = ⌊q⌋ := by
    unfold toPixelCoord pyTrunc
    rw [if_neg (not_lt.mpr hq0)]
  refine ⟨htr, ?_, ?_⟩
  · rw [htr]
    exact_mod_cast Int.floor_nonneg.mpr hq0
  · rw [htr]
    have : (⌊q⌋ : ℚ) ≤ (dim : ℚ) - 1 := le_trans (Int.floor_le q) hqhi
    have h2 : ((dim : ℚ) - 1) = (((dim : ℤ) - 1 : ℤ) : ℚ) := by push_cast; ring
    rw [h2] at this
    exact_mod_cast this

/-- Witness for `toPixelCoord_floor_clip` at dim 24, offset 0.3. -/
theorem toPixelCoord_floor_clip_witness :
    toPixelCoord 24 (3/10) =
        ⌊clipQ (((3/10 : ℚ) * (1/2) + 1/2) * ((24 : ℚ) - 1)) 0 ((24 : ℚ) - 1)⌋ ∧
      0 ≤ toPixelCoord 24 (3/10) ∧ toPixelCoord 24 (3/10) ≤ (24 : ℤ) - 1 :=
  toPixelCoord_floor_clip 24 (3/10) (by decide)

/-! ## depth_pipeline/output_pipeline.py -/

/-- The shared cache state of `output_pipeline.py`: `_latest_depth` (initially
`None`) together with `_latest_timestamp` (initially `0.0`). -/
structure DepthCache where
  latest : Option DepthMap
  timestamp : ℚ

/-- `get_latest_depth(max_age)` read at wall-clock time `now`: `None` when no
frame is cached; otherwise `None` when `now - timestamp > max_age`, else the
cached frame (the `.copy()` is identity in the model). -/
def getLatestDepth (st : DepthCache) (now maxAge : ℚ) : Option DepthMap :=
  match st.latest with
  | none => none
  | some d => if now - st.timestamp > maxAge then none else some d

/-- C8: `get_latest_depth` returns the cached frame exactly when one is cached
and its age `now - timestamp` is at most `max_age`; otherwise it returns
`None`. -/
theorem getLatestDepth_iff (st : DepthCache) (now maxAge : ℚ) (d : DepthMap) :
    getLatestDepth st now maxAge = some d ↔
      st.latest = some d ∧ now - st.timestamp ≤ maxAge := by
  unfold getLatestDepth
  cases h : st.latest with
  | none => simp
  | some d0 =>
    by_cases hage : now - st.timestamp > maxAge
    · simp [hage, not_le.mpr hage]
    · simp [hage, not_lt.mp hage]

/-! ## path_re_planner (absent from the source tree) -/

/-- Apply `f` to every element except the last one. -/
def mapButLast (f : ℚ × ℚ → ℚ × ℚ) : List (ℚ × ℚ) → List (ℚ × ℚ)
  | [] => []
  | [a] => [a]
  | a :: b :: rest => f a :: mapButLast f (b :: rest)

/-- Modelled from the spec: `path_re_planner` is imported by
`drone_navigator/drone_navigator.py` from `path_calculator.path_calculator`
but no definition of it appears anywhere under the source tree; only its
caller exists. Spec §4.2 describes the lateral replanning primitive
`shift_path(direction, path, position, shift)`: for `direction ∈ {left,
right}` it "translates every waypoint except the final goal by `±shift`
along the lateral axis", the final goal staying fixed; per the spec's
replanning scenario a `left` verdict shifts toward negative x. The spec's
`direction == none` detour-insertion branch is exercised by no claim and is
modelled as the identity. -/
def shiftPath (direction : String) (path : List (ℚ × ℚ)) (_position : ℚ × ℚ)
    (shift : ℚ) : List (ℚ × ℚ) :=
  if direction = "left" then mapButLast (fun p => (p.1 - shift, p.2)) path
  else if direction = "right" then mapButLast (fun p => (p.1 + shift, p.2)) path
  else path

/-- C9: with a `left` verdict and shift 0.5, the path `[(0,0),(1,0),(2,0)]`
has every waypoint except the final goal translated by the shift along the
lateral (x) axis, the final goal `(2,0)` unchanged. -/
theorem shiftPath_left_scenario :
    shiftPath "left" [(0, 0), (1, 0), (2, 0)] (0, 0) (1/2)
        = ([(0, 0), (1, 0)] : List (ℚ × ℚ)).map (fun p => (p.1 - 1/2, p.2))
            ++ [(2, 0)] ∧
      (shiftPath "left" [(0, 0), (1, 0), (2, 0)] (0, 0) (1/2)).getLast? =
        some (2, 0) := by
  constructor
  · with_unfolding_all decide
  · with_unfolding_all decide

/-! ## gird_map/grid_map_builder.py -/

/-- A Python dict from coordinates to node indices: insertion-ordered
association list with replace-on-existing-key semantics. -/
abbrev NodeDict := List ((ℚ × ℚ) × ℕ)

def dictKeys (d : NodeDict) : List (ℚ × ℚ) := d.map (fun p => p.1)

/-- `nodes[(x, y)] = idx` on a Python dict: overwrite if the key exists,
else append preserving insertion order. -/
def dictInsert (d : NodeDict) (k : ℚ × ℚ) (v : ℕ) : NodeDict :=
  if k ∈ dictKeys d then d.map (fun p => if p.1 = k then (k, v) else p)
  else d ++ [(k, v)]

/-- Dict lookup `nodes[(x, y)]` / membership test `(x, y) in nodes`. -/
def dictFind (d : NodeDict) (k : ℚ × ℚ) : Option ℕ :=
  match d.find? (fun p => decide (p.1 = k)) with
  | some p => some p.2
  | none => none

/-- The loop `nodes[key] = idx; idx += 1` over a list of keys. -/
def insertAll (d : NodeDict) (idx : ℕ) : List (ℚ × ℚ) → NodeDict
  | [] => d
  | k :: ks => insertAll (dictInsert d k idx) (idx + 1) ks

/-- Keys paired with consecutive indices starting at `idx` (what `insertAll`
produces when no key repeats). -/
def enumKeysFrom (idx : ℕ) : List (ℚ × ℚ) → NodeDict
  | [] => []
  | k :: ks => (k, idx) :: enumKeysFrom (idx + 1) ks

/-- Step 1 of `build_grid_x_graph`: corner keys in loop order
(`for i in range(Nx+1): for j in range(Ny+1)`), at
`(-actual_width/2 + i·spacing, j·spacing)`. -/
def cornerKeys (nx ny : ℕ) (w s : ℚ) : List (ℚ × ℚ) :=
  ((List.range (nx + 1)).product (List.range (ny + 1))).map
    (fun p => (-w/2 + p.1 * s, p.2 * s))

/-- Step 2: cell-center keys in loop order, at
`(-actual_width/2 + (i+0.5)·spacing, (j+0.5)·spacing)`. -/
def centerKeys (nx ny : ℕ) (w s : ℚ) : List (ℚ × ℚ) :=
  ((List.range nx).product (List.range ny)).map
    (fun p => (-w/2 + (p.1 + 1/2) * s, (p.2 + 1/2) * s))

/-- A weighted undirected edge as stored by `networkx.Graph.add_edge`. -/
structure GEdge where
  u : ℕ
  v : ℕ
  weight : ℝ

/-- Whether a stored edge joins `u` and `v` (undirected). -/
def edgeMatches (e : GEdge) (u v : ℕ) : Bool :=
  (e.u == u && e.v == v) || (e.u == v && e.v == u)

/-- `G.add_edge(u, v, weight=w)` on a simple undirected graph: update the
weight when the edge exists, else append it. -/
def addEdge (es : List GEdge) (u v : ℕ) (w : ℝ) : List GEdge :=
  if es.any (fun e => edgeMatches e u v) then
    es.map (fun e => if edgeMatches e u v then ⟨e.u, e.v, w⟩ else e)
  else es ++ [⟨u, v, w⟩]

/-- `math.hypot(a, b)`. -/
noncomputable def hypotR (a b : ℚ) : ℝ := Real.sqrt ((a : ℝ)^2 + (b : ℝ)^2)

/-- The corner list `[(x0,y0), (x1,y0), (x1,y1), (x0,y1)]` of cell `(i, j)`. -/
def cellCorners (iq jq : ℚ) (w s : ℚ) : List (ℚ × ℚ) :=
  [(-w/2 + iq * s, jq * s), (-w/2 + iq * s + s, jq * s),
   (-w/2 + iq * s + s, jq * s + s), (-w/2 + iq * s, jq * s + s)]

/-- Step 3, one cell: connect the cell's center to its four corners. A `none`
lookup would be a Python `KeyError`; it is proven unreachable on the dict the
builder constructs, and skips the edge here. -/
noncomputable def addCellEdges (nodes : NodeDict) (w s : ℚ) (i j : ℕ)
    (es : List GEdge) : List GEdge :=
  let center : ℚ × ℚ := (-w/2 + ((i : ℚ) + 1/2) * s, ((j : ℚ) + 1/2) * s)
  match dictFind nodes center with
  | none => es
  | some cIdx =>
    (cellCorners (i : ℚ) (j : ℚ) w s).foldl (fun acc corner =>
      match dictFind nodes corner with
      | none => acc
      | some cornerIdx =>
        addEdge acc cIdx cornerIdx
          (hypotR (corner.1 - center.1) (corner.2 - center.2))) es

/-- Step 3, all cells (`for i in range(Nx): for j in range(Ny)`). -/
noncomputable def centerCornerEdges (nodes : NodeDict) (w s : ℚ)
    (nx ny : ℕ) : List GEdge :=
  (List.range nx).foldl (fun acc i =>
    (List.range ny).foldl (fun acc2 j => addCellEdges nodes w s i j acc2) acc) []

/-- Step 4, one dict entry: if the coordinate passes the corner tolerance test
`abs((x + actual_width/2) % spacing) < 1e-6 and abs(y % spacing) < 1e-6`,
connect it to its east and north neighbours when those keys exist. -/
noncomputable def addCornerNbrEdges (nodes : NodeDict) (w s : ℚ)
    (es : List GEdge) (entry : (ℚ × ℚ) × ℕ) : List GEdge :=
  let x := entry.1.1
  let y := entry.1.2
  if |pyMod (x + w/2) s| < 1/1000000 ∧ |pyMod y s| < 1/1000000 then
    [((s : ℚ), (0 : ℚ)), ((0 : ℚ), s)].foldl (fun acc off =>
      match dictFind nodes (x + off.1, y + off.2) with
      | some nid2 => addEdge acc entry.2 nid2 (hypotR off.1 off.2)
      | none => acc) es
  else es

/-- Node attributes of the `networkx` graph: node index to its `'coord'`
attribute, written by `G.add_node(node_id, coord=coord)` per dict entry. -/
def attrsInsert (d : List (ℕ × (ℚ × ℚ))) (k : ℕ) (v : ℚ × ℚ) :
    List (ℕ × (ℚ × ℚ)) :=
  if k ∈ d.map (fun p => p.1) then d.map (fun p => if p.1 = k then (k, v) else p)
  else d ++ [(k, v)]

def buildAttrs (nodes : NodeDict) : List (ℕ × (ℚ × ℚ)) :=
  nodes.foldl (fun acc p => attrsInsert acc p.2 p.1) []

/-- The value of `build_grid_x_graph`: the graph (node attributes and weighted
edge list) plus the `nodes` coordinate-to-index dict. -/
structure GridGraph where
  nodes : NodeDict
  attrs : List (ℕ × (ℚ × ℚ))
  edges : List GEdge

/-- `build_grid_x_graph(width, length, spacing)` of `grid_map_builder.py`,
with its `ValueError`s as `Except.error`. -/
noncomputable def buildGridXGraph (width length spacing : ℚ) :
    Except String GridGraph :=
  if spacing ≤ 0 then .error "spacing must be positive"
  else if width ≤ 0 ∨ length ≤ 0 then .error "width and length must be positive"
  else
    let nxi : ℤ := pyRound (width / spacing)
    let nyi : ℤ := pyRound (length / spacing)
    if nxi < 1 ∨ nyi < 1 then
      .error "width and length must each be at least spacing"
    else
      let nx := nxi.toNat
      let ny := nyi.toNat
      let w := (nx : ℚ) * spacing
      let nodes := insertAll [] 0 (cornerKeys nx ny w spacing ++ centerKeys nx ny w spacing)
      let es1 := centerCornerEdges nodes w spacing nx ny
      let es := nodes.foldl (addCornerNbrEdges nodes w spacing) es1
      .ok ⟨nodes, buildAttrs nodes, es⟩

/-- Node count of a build result (0 on error). -/
noncomputable def nodeCountOf (r : Except String GridGraph) : ℕ :=
  match r with
  | .ok g => g.nodes.length
  | .error _ => 0

/-- Edge count of a build result (0 on error). -/
noncomputable def edgeCountOf (r : Except String GridGraph) : ℕ :=
  match r with
  | .ok g => g.edges.length
  | .error _ => 0

/-! ### Dictionary infrastructure -/

lemma dictKeys_append (d e : NodeDict) : dictKeys (d ++ e) = dictKeys d ++ dictKeys e := by
  simp [dictKeys]

lemma dictInsert_fresh (d : NodeDict) (k : ℚ × ℚ) (v : ℕ) (h : k ∉ dictKeys d) :
    dictInsert d k v = d ++ [(k, v)] := by
  simp [dictInsert, h]

lemma insertAll_fresh (ks : List (ℚ × ℚ)) : ∀ (d : NodeDict) (idx : ℕ),
    (∀ k ∈ ks, k ∉ dictKeys d) → ks.Nodup →
    insertAll d idx ks = d ++ enumKeysFrom idx ks := by
  induction ks with
  | nil => intro d idx _ _; simp [insertAll, enumKeysFrom]
  | cons k ks ih =>
    intro d idx hfresh hnodup
    rw [insertAll, dictInsert_fresh d k idx (hfresh k (List.mem_cons_self k ks))]
    rw [ih (d ++ [(k, idx)]) (idx + 1) ?_ (List.Nodup.of_cons hnodup)]
    · rw [enumKeysFrom, List.append_assoc]
      rfl
    · intro k2 hk2
      rw [dictKeys_append]
      simp only [List.mem_append]
      rintro (h1 | h2)
      · exact hfresh k2 (List.mem_cons_of_mem _ hk2) h1
      · have hk2ne : k2 ≠ k := by
          intro he
          exact (List.nodup_cons.mp hnodup).1 (he ▸ hk2)
        simp [dictKeys] at h2
        exact hk2ne h2
    
lemma enumKeysFrom_append (a b : List (ℚ × ℚ)) : ∀ idx,
    enumKeysFrom idx (a ++ b) = enumKeysFrom idx a ++ enumKeysFrom (idx + a.length) b := by
  induction a with
  | nil => intro idx; simp [enumKeysFrom]
  | cons k a ih =>
    intro idx
    rw [List.cons_append, enumKeysFrom, enumKeysFrom, ih (idx + 1), List.cons_append]
    have : idx + 1 + a.length = idx + (a.length + 1) := by omega
    rw [this]
    rfl

lemma length_enumKeysFrom (ks : List (ℚ × ℚ)) : ∀ idx, (enumKeysFrom idx ks).length = ks.length := by
  induction ks with
  | nil => intro idx; rfl
  | cons k ks ih => intro idx; rw [enumKeysFrom, List.length_cons, List.length_cons, ih]

/-- Position of the first occurrence of a key in a key list. -/
def posOf {α : Type} [DecidableEq α] (k : α) : List α → ℕ
  | [] => 0
  | a :: ks => if a = k then 0 else posOf k ks + 1

lemma posOf_inj {ks : List (ℚ × ℚ)} {k1 k2 : ℚ × ℚ} (h1 : k1 ∈ ks) (h2 : k2 ∈ ks)
    (he : posOf k1 ks = posOf k2 ks) : k1 = k2 := by
  induction ks with
  | nil => cases h1
  | cons a ks ih =>
    by_cases ha1 : a = k1
    · by_cases ha2 : a = k2
      · exact ha1 ▸ ha2
      · rw [posOf, posOf, if_pos ha1, if_neg ha2] at he
        omega
    · by_cases ha2 : a = k2
      · rw [posOf, posOf, if_neg ha1, if_pos ha2] at he
        omega
      · rw [posOf, posOf, if_neg ha1, if_neg ha2] at he
        have h1b : k1 ∈ ks := by
          rcases List.mem_cons.mp h1 with h | h
          · exact absurd h.symm ha1
          · exact h
        have h2b : k2 ∈ ks := by
          rcases List.mem_cons.mp h2 with h | h
          · exact absurd h.symm ha2
          · exact h
        exact ih h1b h2b (by omega)

lemma posOf_append_left {ks : List (ℚ × ℚ)} (ls : List (ℚ × ℚ)) {k : ℚ × ℚ}
    (h : k ∈ ks) : posOf k (ks ++ ls) = posOf k ks := by
  induction ks with
  | nil => cases h
  | cons a ks ih =>
    by_cases ha : a = k
    · simp [posOf, ha]
    · have hb : k ∈ ks := by
        rcases List.mem_cons.mp h with hh | hh
        · exact absurd hh.symm ha
        · exact hh
      simp [posOf, ha, ih hb]

lemma dictFind_enum_mem (ks : List (ℚ × ℚ)) : ∀ (idx : ℕ) (k : ℚ × ℚ), k ∈ ks →
    dictFind (enumKeysFrom idx ks) k = some (idx + posOf k ks) := by
  induction ks with
  | nil => intro idx k hk; cases hk
  | cons a ks ih =>
    intro idx k hk
    by_cases hak : a = k
    · subst hak
      rw [enumKeysFrom, dictFind, List.find?_cons_of_pos _ (by simp)]
      simp [posOf]
    · have hk2 : k ∈ ks := by
        rcases List.mem_cons.mp hk with h | h
        · exact absurd h.symm hak
        · exact h
      rw [enumKeysFrom, dictFind, List.find?_cons_of_neg _ (by simp [hak])]
      rw [← dictFind, ih (idx + 1) k hk2, posOf, if_neg hak]
      congr 1
      omega

lemma dictFind_enum_not_mem (ks : List (ℚ × ℚ)) : ∀ (idx : ℕ) (k : ℚ × ℚ), k ∉ ks →
    dictFind (enumKeysFrom idx ks) k = none := by
  induction ks with
  | nil => intro idx k _; rfl
  | cons a ks ih =>
    intro idx k hk
    rw [enumKeysFrom, dictFind, List.find?_cons_of_neg _
      (by simp; rintro rfl; exact hk (List.mem_cons_self a ks))]
    rw [← dictFind]
    exact ih (idx + 1) k (fun h => hk (List.mem_cons_of_mem _ h))

lemma enumKeysFrom_eq_map (ks : List (ℚ × ℚ)) : ∀ idx, ks.Nodup →
    enumKeysFrom idx ks = ks.map (fun k => (k, idx + posOf k ks)) := by
  induction ks with
  | nil => intro idx _; rfl
  | cons a ks ih =>
    intro idx hnodup
    rw [enumKeysFrom, ih (idx + 1) (List.Nodup.of_cons hnodup), List.map_cons]
    rw [posOf, if_pos rfl]
    congr 1
    refine List.map_congr_left (fun k hk => ?_)
    have hak : a ≠ k := fun he => (List.nodup_cons.mp hnodup).1 (he ▸ hk)
    rw [posOf, if_neg hak]
    simp only [Prod.mk.injEq, true_and]
    omega

/-! ### Grid keys: forms, distinctness, the built node dict -/

/-- Corner coordinate `(−actual_width/2 + i·spacing, j·spacing)`. -/
def cornerCoord (w s : ℚ) (i j : ℕ) : ℚ × ℚ := (-w/2 + (i : ℚ) * s, (j : ℚ) * s)

/-- Center coordinate `(−actual_width/2 + (i+0.5)·spacing, (j+0.5)·spacing)`. -/
def centerCoord (w s : ℚ) (i j : ℕ) : ℚ × ℚ :=
  (-w/2 + ((i : ℚ) + 1/2) * s, ((j : ℚ) + 1/2) * s)

lemma mem_cornerKeys {nx ny : ℕ} {w s : ℚ} {p : ℚ × ℚ} :
    p ∈ cornerKeys nx ny w s ↔ ∃ i j, i ≤ nx ∧ j ≤ ny ∧ p = cornerCoord w s i j := by
  simp only [cornerKeys, cornerCoord, List.mem_map, Prod.exists]
  constructor
  · rintro ⟨i, j, hmem, rfl⟩
    have := List.mem_product.mp hmem
    simp only [List.mem_range, Nat.lt_succ_iff] at this
    exact ⟨i, j, this.1, this.2, rfl⟩
  · rintro ⟨i, j, hi, hj, rfl⟩
    exact ⟨i, j, List.mem_product.mpr (by
      simp only [List.mem_range, Nat.lt_succ_iff]; exact ⟨hi, hj⟩), rfl⟩

lemma mem_centerKeys {nx ny : ℕ} {w s : ℚ} {p : ℚ × ℚ} :
    p ∈ centerKeys nx ny w s ↔ ∃ i j, i < nx ∧ j < ny ∧ p = centerCoord w s i j := by
  simp only [centerKeys, centerCoord, List.mem_map, Prod.exists]
  constructor
  · rintro ⟨i, j, hmem, rfl⟩
    have := List.mem_product.mp hmem
    simp only [List.mem_range] at this
    exact ⟨i, j, this.1, this.2, rfl⟩
  · rintro ⟨i, j, hi, hj, rfl⟩
    exact ⟨i, j, List.mem_product.mpr (by
      simp only [List.mem_range]; exact ⟨hi, hj⟩), rfl⟩

lemma natCast_mul_cancel {s : ℚ} (hs : s ≠ 0) {a b : ℕ}
    (h : (a : ℚ) * s = (b : ℚ) * s) : a = b := by
  have := mul_right_cancel₀ hs h
  exact_mod_cast this

lemma cornerCoord_inj {w s : ℚ} (hs : s ≠ 0) {i j i2 j2 : ℕ}
    (h : cornerCoord w s i j = cornerCoord w s i2 j2) : i = i2 ∧ j = j2 := by
  rw [cornerCoord, cornerCoord, Prod.mk.injEq] at h
  obtain ⟨h1, h2⟩ := h
  have h1b : (i : ℚ) * s = (i2 : ℚ) * s := by linarith
  exact ⟨natCast_mul_cancel hs h1b, natCast_mul_cancel hs h2⟩

lemma centerCoord_inj {w s : ℚ} (hs : s ≠ 0) {i j i2 j2 : ℕ}
    (h : centerCoord w s i j = centerCoord w s i2 j2) : i = i2 ∧ j = j2 := by
  rw [centerCoord, centerCoord, Prod.mk.injEq] at h
  obtain ⟨h1, h2⟩ := h
  have h1b : ((i : ℚ) + 1/2) * s = ((i2 : ℚ) + 1/2) * s := by linarith
  have h1c : (i : ℚ) = (i2 : ℚ) := by
    have := mul_right_cancel₀ hs h1b
    linarith
  have h2c : (j : ℚ) = (j2 : ℚ) := by
    have := mul_right_cancel₀ hs h2
    linarith
  exact ⟨by exact_mod_cast h1c, by exact_mod_cast h2c⟩

lemma cornerCoord_ne_centerCoord {w s : ℚ} (hs : s ≠ 0) (i j i2 j2 : ℕ) :
    cornerCoord w s i j ≠ centerCoord w s i2 j2 := by
  intro h
  rw [cornerCoord, centerCoord, Prod.mk.injEq] at h
  have h2 : (j : ℚ) * s = ((j2 : ℚ) + 1/2) * s := h.2
  have h2b : (j : ℚ) = (j2 : ℚ) + 1/2 := by
    have := mul_right_cancel₀ hs h2
    linarith
  have : ((2 * j : ℕ) : ℚ) = ((2 * j2 + 1 : ℕ) : ℚ) := by push_cast; linarith
  have := Nat.cast_injective this
  omega

lemma cornerKeys_nodup {nx ny : ℕ} {w s : ℚ} (hs : s ≠ 0) :
    (cornerKeys nx ny w s).Nodup := by
  refine List.Nodup.map_on ?_ (List.Nodup.product (List.nodup_range _) (List.nodup_range _))
  rintro ⟨i, j⟩ _ ⟨i2, j2⟩ _ h
  have := cornerCoord_inj (w := w) hs (show cornerCoord w s i j = cornerCoord w s i2 j2 from h)
  simp [this.1, this.2]

lemma centerKeys_nodup {nx ny : ℕ} {w s : ℚ} (hs : s ≠ 0) :
    (centerKeys nx ny w s).Nodup := by
  refine List.Nodup.map_on ?_ (List.Nodup.product (List.nodup_range _) (List.nodup_range _))
  rintro ⟨i, j⟩ _ ⟨i2, j2⟩ _ h
  have := centerCoord_inj (w := w) hs (show centerCoord w s i j = centerCoord w s i2 j2 from h)
  simp [this.1, this.2]

lemma corner_center_disjoint {nx ny : ℕ} {w s : ℚ} (hs : s ≠ 0) :
    (cornerKeys nx ny w s).Disjoint (centerKeys nx ny w s) := by
  intro p hp hq
  obtain ⟨i, j, _, _, rfl⟩ := mem_cornerKeys.mp hp
  obtain ⟨i2, j2, _, _, he⟩ := mem_centerKeys.mp hq
  exact cornerCoord_ne_centerCoord hs i j i2 j2 he

/-- All keys in dict insertion order: corners first, then centers. -/
def allKeys (nx ny : ℕ) (w s : ℚ) : List (ℚ × ℚ) :=
  cornerKeys nx ny w s ++ centerKeys nx ny w s

lemma allKeys_nodup {nx ny : ℕ} {w s : ℚ} (hs : s ≠ 0) :
    (allKeys nx ny w s).Nodup :=
  List.nodup_append.mpr ⟨cornerKeys_nodup hs, centerKeys_nodup hs, corner_center_disjoint hs⟩

/-- The index a key receives in the built dict. -/
def keyIdx (nx ny : ℕ) (w s : ℚ) (k : ℚ × ℚ) : ℕ := posOf k (allKeys nx ny w s)

/-- The node dict the builder constructs. -/
def gridNodes (nx ny : ℕ) (w s : ℚ) : NodeDict := insertAll [] 0 (allKeys nx ny w s)

lemma gridNodes_eq {nx ny : ℕ} {w s : ℚ} (hs : s ≠ 0) :
    gridNodes nx ny w s = enumKeysFrom 0 (allKeys nx ny w s) := by
  rw [gridNodes, insertAll_fresh _ _ _ (by simp [dictKeys]) (allKeys_nodup hs)]
  rfl

lemma length_cornerKeys (nx ny : ℕ) (w s : ℚ) :
    (cornerKeys nx ny w s).length = (nx + 1) * (ny + 1) := by
  rw [cornerKeys, List.length_map]
  exact (List.length_product _ _).trans (by rw [List.length_range, List.length_range])

lemma length_centerKeys (nx ny : ℕ) (w s : ℚ) :
    (centerKeys nx ny w s).length = nx * ny := by
  rw [centerKeys, List.length_map]
  exact (List.length_product _ _).trans (by rw [List.length_range, List.length_range])

lemma gridNodes_length {nx ny : ℕ} {w s : ℚ} (hs : s ≠ 0) :
    (gridNodes nx ny w s).length = (nx + 1) * (ny + 1) + nx * ny := by
  rw [gridNodes_eq hs, length_enumKeysFrom, allKeys, List.length_append,
    length_cornerKeys, length_centerKeys]

lemma dictFind_gridNodes {nx ny : ℕ} {w s : ℚ} (hs : s ≠ 0) {k : ℚ × ℚ}
    (hk : k ∈ allKeys nx ny w s) :
    dictFind (gridNodes nx ny w s) k = some (keyIdx nx ny w s k) := by
  rw [gridNodes_eq hs, dictFind_enum_mem _ 0 k hk, keyIdx, Nat.zero_add]

lemma dictFind_gridNodes_none {nx ny : ℕ} {w s : ℚ} (hs : s ≠ 0) {k : ℚ × ℚ}
    (hk : k ∉ allKeys nx ny w s) :
    dictFind (gridNodes nx ny w s) k = none := by
  rw [gridNodes_eq hs, dictFind_enum_not_mem _ 0 k hk]

lemma keyIdx_inj {nx ny : ℕ} {w s : ℚ} {k1 k2 : ℚ × ℚ}
    (h1 : k1 ∈ allKeys nx ny w s) (h2 : k2 ∈ allKeys nx ny w s)
    (he : keyIdx nx ny w s k1 = keyIdx nx ny w s k2) : k1 = k2 :=
  posOf_inj h1 h2 he

/-! ### The build result under valid parameters -/

lemma floor_le_pyRound (q : ℚ) : ⌊q⌋ ≤ pyRound q := by
  simp only [pyRound]
  split_ifs <;> omega

lemma pyRound_ge_one {q : ℚ} (h : 1 ≤ q) : 1 ≤ pyRound q :=
  le_trans (Int.le_floor.mpr (by exact_mod_cast h)) (floor_le_pyRound q)

/-- The edge list the builder constructs (steps 3 and 4). -/
noncomputable def gridEdges (nx ny : ℕ) (w s : ℚ) : List GEdge :=
  (gridNodes nx ny w s).foldl (addCornerNbrEdges (gridNodes nx ny w s) w s)
    (centerCornerEdges (gridNodes nx ny w s) w s nx ny)

lemma buildGridXGraph_ok (width length spacing : ℚ) (hs : 0 < spacing)
    (hw : spacing ≤ width) (hl : spacing ≤ length) :
    buildGridXGraph width length spacing =
      Except.ok
        { nodes := gridNodes (pyRound (width / spacing)).toNat
            (pyRound (length / spacing)).toNat
            (((pyRound (width / spacing)).toNat : ℚ) * spacing) spacing,
          attrs := buildAttrs (gridNodes (pyRound (width / spacing)).toNat
            (pyRound (length / spacing)).toNat
            (((pyRound (width / spacing)).toNat : ℚ) * spacing) spacing),
          edges := gridEdges (pyRound (width / spacing)).toNat
            (pyRound (length / spacing)).toNat
            (((pyRound (width / spacing)).toNat : ℚ) * spacing) spacing } := by
  have h1 : ¬ spacing ≤ 0 := not_le.mpr hs
  have hwpos : 0 < width := lt_of_lt_of_le hs hw
  have hlpos : 0 < length := lt_of_lt_of_le hs hl
  have h2 : ¬ (width ≤ 0 ∨ length ≤ 0) := by
    rintro (h | h)
    · exact absurd h (not_le.mpr hwpos)
    · exact absurd h (not_le.mpr hlpos)
  have hx1 : 1 ≤ pyRound (width / spacing) :=
    pyRound_ge_one ((le_div_iff₀ hs).mpr (by linarith))
  have hy1 : 1 ≤ pyRound (length / spacing) :=
    pyRound_ge_one ((le_div_iff₀ hs).mpr (by linarith))
  have h3 : ¬ (pyRound (width / spacing) < 1 ∨ pyRound (length / spacing) < 1) := by
    rintro (h | h) <;> omega
  rw [buildGridXGraph, if_neg h1, if_neg h2]
  simp only [if_neg h3]
  rfl

/-- First key of the node dict of a build result. -/
def headKeyOf (r : Except String GridGraph) : Option (ℚ × ℚ) :=
  match r with
  | .ok g => g.nodes.head?.map (fun p => p.1)
  | .error _ => none

/-- C3 (counterexample): for `width = 1.2`, `length = spacing = 0.5` the first
corner node the builder places is at `(-0.5, 0)` — using the recomputed
`actual_width = Nx·spacing = 1.0` — which is not of the claimed form
`(i·spacing − width/2, j·spacing)` for any grid index `(i, j)` with the
caller-supplied `width = 1.2`. -/
theorem buildGridXGraph_center_not_caller_width :
    headKeyOf (buildGridXGraph (6/5) (1/2) (1/2)) = some (-(1/2), 0) ∧
      (∀ i ∈ List.range 3, ∀ j ∈ List.range 2,
        ((-(1/2) : ℚ), (0 : ℚ)) ≠ ((i : ℚ) * (1/2) - (6/5)/2, (j : ℚ) * (1/2))) := by
  constructor
  · with_unfolding_all decide
  · with_unfolding_all decide

/-- C3 (amended): every corner node (the first `(Nx+1)·(Ny+1)` dict entries) is
placed at `(i·spacing − actual_width/2, j·spacing)` where
`actual_width = Nx·spacing` is recomputed from the rounded cell count — not
centered by the caller-supplied `width`. -/
theorem buildGridXGraph_corner_offset_actual_width (width length spacing : ℚ)
    (hs : 0 < spacing) (hw : spacing ≤ width) (hl : spacing ≤ length) :
    ∃ g, buildGridXGraph width length spacing = Except.ok g ∧
      ∀ kp ∈ g.nodes.take
        (((pyRound (width / spacing)).toNat + 1) * ((pyRound (length / spacing)).toNat + 1)),
        ∃ i ≤ (pyRound (width / spacing)).toNat, ∃ j ≤ (pyRound (length / spacing)).toNat,
          kp.1 = ((i : ℚ) * spacing - (((pyRound (width / spacing)).toNat : ℚ) * spacing) / 2,
                  (j : ℚ) * spacing) := by
  refine ⟨_, buildGridXGraph_ok width length spacing hs hw hl, ?_⟩
  set nx := (pyRound (width / spacing)).toNat
  set ny := (pyRound (length / spacing)).toNat
  set w : ℚ := (nx : ℚ) * spacing with hw2
  intro kp hkp
  have hsne : spacing ≠ 0 := ne_of_gt hs
  rw [gridNodes_eq hsne, allKeys, enumKeysFrom_append] at hkp
  have hlen : (enumKeysFrom 0 (cornerKeys nx ny w spacing)).length = (nx + 1) * (ny + 1) := by
    rw [length_enumKeysFrom, length_cornerKeys]
  rw [← hlen, List.take_left] at hkp
  rw [enumKeysFrom_eq_map _ _ (cornerKeys_nodup hsne)] at hkp
  obtain ⟨k, hk, rfl⟩ := List.mem_map.mp hkp
  obtain ⟨i, j, hi, hj, rfl⟩ := mem_cornerKeys.mp hk
  refine ⟨i, hi, j, hj, ?_⟩
  rw [cornerCoord, Prod.mk.injEq]
  constructor
  · ring
  · rfl

/-- Witness for `buildGridXGraph_corner_offset_actual_width` at (1, 1, 1). -/
theorem buildGridXGraph_corner_offset_actual_width_witness :
    ∃ g, buildGridXGraph 1 1 1 = Except.ok g ∧
      ∀ kp ∈ g.nodes.take
        (((pyRound ((1 : ℚ) / 1)).toNat + 1) * ((pyRound ((1 : ℚ) / 1)).toNat + 1)),
        ∃ i ≤ (pyRound ((1 : ℚ) / 1)).toNat, ∃ j ≤ (pyRound ((1 : ℚ) / 1)).toNat,
          kp.1 = ((i : ℚ) * 1 - (((pyRound ((1 : ℚ) / 1)).toNat : ℚ) * 1) / 2, (j : ℚ) * 1) :=
  buildGridXGraph_corner_offset_actual_width 1 1 1 (by norm_num) (by norm_num) (by norm_num)

/-! ### Edge lists: freshness and counting machinery -/

/-- Canonical unordered key of an edge. -/
def normPair (u v : ℕ) : ℕ × ℕ := (min u v, max u v)

lemma normPair_eq_iff (a b c d : ℕ) :
    normPair a b = normPair c d ↔ (a = c ∧ b = d) ∨ (a = d ∧ b = c) := by
  simp only [normPair, Prod.mk.injEq]
  omega

lemma edgeMatches_iff (e : GEdge) (u v : ℕ) :
    edgeMatches e u v = true ↔ normPair e.u e.v = normPair u v := by
  simp only [edgeMatches, Bool.or_eq_true, Bool.and_eq_true, beq_iff_eq, normPair_eq_iff]

/-- Norm keys of a stored edge list. -/
def edgeNorms (es : List GEdge) : List (ℕ × ℕ) := es.map (fun e => normPair e.u e.v)

/-- Norm keys of a pending list of `add_edge` calls `(u, v, weight)`. -/
def addNorms (l : List (ℕ × ℕ × ℝ)) : List (ℕ × ℕ) := l.map (fun t => normPair t.1 t.2.1)

/-- A sequence of `G.add_edge` calls. -/
noncomputable def addEdgeList (es : List GEdge) (l : List (ℕ × ℕ × ℝ)) : List GEdge :=
  l.foldl (fun acc t => addEdge acc t.1 t.2.1 t.2.2) es

lemma addEdgeList_append (es : List GEdge) (l1 l2 : List (ℕ × ℕ × ℝ)) :
    addEdgeList es (l1 ++ l2) = addEdgeList (addEdgeList es l1) l2 := by
  simp [addEdgeList, List.foldl_append]

lemma addEdge_fresh (es : List GEdge) (u v : ℕ) (w : ℝ)
    (h : normPair u v ∉ edgeNorms es) : addEdge es u v w = es ++ [⟨u, v, w⟩] := by
  rw [addEdge, if_neg]
  simp only [List.any_eq_true, not_exists, not_and, Bool.not_eq_true]
  intro e he
  rw [Bool.eq_false_iff]
  intro hm
  exact h (List.mem_map.mpr ⟨e, he, (edgeMatches_iff e u v).mp hm⟩)

lemma addEdgeList_fresh (l : List (ℕ × ℕ × ℝ)) : ∀ es : List GEdge,
    (addNorms l).Nodup → (∀ p ∈ addNorms l, p ∉ edgeNorms es) →
    addEdgeList es l = es ++ l.map (fun t => ⟨t.1, t.2.1, t.2.2⟩) := by
  induction l with
  | nil => intro es _ _; simp [addEdgeList]
  | cons t l ih =>
    intro es hnodup hfresh
    have hhead : normPair t.1 t.2.1 ∉ edgeNorms es :=
      hfresh _ (List.mem_cons_self _ _)
    have hstep : addEdgeList es (t :: l) = addEdgeList (es ++ [⟨t.1, t.2.1, t.2.2⟩]) l := by
      rw [addEdgeList, List.foldl_cons, addEdge_fresh es t.1 t.2.1 t.2.2 hhead]
      rfl
    have hfresh2 : ∀ p ∈ addNorms l, p ∉ edgeNorms (es ++ [GEdge.mk t.1 t.2.1 t.2.2]) := by
      intro p hp
      have hp2 : p ∈ addNorms (t :: l) := List.mem_cons_of_mem _ hp
      have hpes : p ∉ edgeNorms es := hfresh p hp2
      have hpt : p ≠ normPair t.1 t.2.1 := by
        intro he
        subst he
        exact (List.nodup_cons.mp hnodup).1 hp
      rw [edgeNorms, List.map_append]
      simp only [List.mem_append, List.map_cons, List.map_nil, List.mem_singleton]
      rintro (h | h)
      · exact hpes h
      · exact hpt h
    rw [hstep, ih _ (List.Nodup.of_cons hnodup) hfresh2, List.append_assoc]
    rfl

lemma addEdgeList_fresh_length (l : List (ℕ × ℕ × ℝ)) (es : List GEdge)
    (h1 : (addNorms l).Nodup) (h2 : ∀ p ∈ addNorms l, p ∉ edgeNorms es) :
    (addEdgeList es l).length = es.length + l.length := by
  rw [addEdgeList_fresh l es h1 h2, List.length_append, List.length_map]

lemma foldl_addEdgeList {α : Type} (l : List α) (g : α → List GEdge → List GEdge)
    (f : α → List (ℕ × ℕ × ℝ)) (h : ∀ a ∈ l, ∀ es, g a es = addEdgeList es (f a)) :
    ∀ es, l.foldl (fun acc a => g a acc) es = addEdgeList es (l.flatMap f) := by
  induction l with
  | nil => intro es; simp [addEdgeList]
  | cons a l ih =>
    intro es
    rw [List.foldl_cons, ih (fun x hx => h x (List.mem_cons_of_mem _ hx)),
      h a (List.mem_cons_self _ _), List.flatMap_cons, addEdgeList_append]

lemma length_flatMap_const {α : Type} (l : List α) (f : α → List (ℕ × ℕ × ℝ)) (c : ℕ)
    (h : ∀ a ∈ l, (f a).length = c) : (l.flatMap f).length = l.length * c := by
  induction l with
  | nil => simp
  | cons a l ih =>
    rw [List.flatMap_cons, List.length_append, h a (List.mem_cons_self _ _),
      ih (fun x hx => h x (List.mem_cons_of_mem _ hx)), List.length_cons]
    ring

lemma length_flatMap_append {α : Type} (l : List α) (f g : α → List (ℕ × ℕ × ℝ)) :
    (l.flatMap (fun a => f a ++ g a)).length = (l.flatMap f).length + (l.flatMap g).length := by
  induction l with
  | nil => simp
  | cons a l ih =>
    simp only [List.flatMap_cons, List.length_append, ih]
    omega

lemma product_flatMap {α β γ : Type} (A : List α) (B : List β) (f : α × β → List γ) :
    (A.product B).flatMap f = A.flatMap (fun a => B.flatMap (fun b => f (a, b))) := by
  rw [List.product]
  induction A with
  | nil => simp
  | cons a A ih =>
    simp only [List.flatMap_cons, List.flatMap_append, ih]
    congr 1
    rw [List.flatMap_map]

/-! ### The built edge list, cell by cell -/

lemma pyMod_natCast_mul (i : ℕ) {s : ℚ} (hs : s ≠ 0) : pyMod ((i : ℚ) * s) s = 0 := by
  rw [pyMod, mul_div_cancel_right₀ _ hs, Int.floor_natCast]
  push_cast
  ring

lemma pyMod_half_mul (i : ℕ) {s : ℚ} (hs : s ≠ 0) :
    pyMod (((i : ℚ) + 1/2) * s) s = s / 2 := by
  rw [pyMod, mul_div_cancel_right₀ _ hs]
  have hfl : ⌊(i : ℚ) + 1/2⌋ = (i : ℤ) := by
    rw [Int.floor_eq_iff]
    constructor
    · push_cast
      linarith
    · push_cast
      linarith
  rw [hfl]
  push_cast
  ring

lemma cornerCoord_mem_allKeys {nx ny : ℕ} {w s : ℚ} {i j : ℕ} (hi : i ≤ nx) (hj : j ≤ ny) :
    cornerCoord w s i j ∈ allKeys nx ny w s :=
  List.mem_append_left _ (mem_cornerKeys.mpr ⟨i, j, hi, hj, rfl⟩)

lemma centerCoord_mem_allKeys {nx ny : ℕ} {w s : ℚ} {i j : ℕ} (hi : i < nx) (hj : j < ny) :
    centerCoord w s i j ∈ allKeys nx ny w s :=
  List.mem_append_right _ (mem_centerKeys.mpr ⟨i, j, hi, hj, rfl⟩)

lemma east_coord_eq {w s : ℚ} (i j : ℕ) :
    ((cornerCoord w s i j).1 + s, (cornerCoord w s i j).2) = cornerCoord w s (i + 1) j := by
  simp only [cornerCoord, Prod.mk.injEq]
  and_intros <;> first | trivial | (push_cast; ring)

lemma north_coord_eq {w s : ℚ} (i j : ℕ) :
    ((cornerCoord w s i j).1, (cornerCoord w s i j).2 + s) = cornerCoord w s i (j + 1) := by
  simp only [cornerCoord, Prod.mk.injEq]
  and_intros <;> first | trivial | (push_cast; ring)

lemma east_overflow_not_mem {nx ny : ℕ} {w s : ℚ} (hs : s ≠ 0) {j : ℕ} :
    cornerCoord w s (nx + 1) j ∉ allKeys nx ny w s := by
  intro h
  rcases List.mem_append.mp h with h | h
  · obtain ⟨i2, j2, hi2, _, he⟩ := mem_cornerKeys.mp h
    have := (cornerCoord_inj hs he.symm).1
    omega
  · obtain ⟨i2, j2, _, _, he⟩ := mem_centerKeys.mp h
    exact cornerCoord_ne_centerCoord hs _ _ _ _ he

lemma north_overflow_not_mem {nx ny : ℕ} {w s : ℚ} (hs : s ≠ 0) {i : ℕ} :
    cornerCoord w s i (ny + 1) ∉ allKeys nx ny w s := by
  intro h
  rcases List.mem_append.mp h with h | h
  · obtain ⟨i2, j2, _, hj2, he⟩ := mem_cornerKeys.mp h
    have := (cornerCoord_inj hs he.symm).2
    omega
  · obtain ⟨i2, j2, _, _, he⟩ := mem_centerKeys.mp h
    exact cornerCoord_ne_centerCoord hs _ _ _ _ he

/-- The four `add_edge` calls of one cell of step 3, as pending tuples. -/
noncomputable def cellAdds (nx ny : ℕ) (w s : ℚ) (i j : ℕ) : List (ℕ × ℕ × ℝ) :=
  [cornerCoord w s i j, cornerCoord w s (i + 1) j,
   cornerCoord w s (i + 1) (j + 1), cornerCoord w s i (j + 1)].map
    (fun c => (keyIdx nx ny w s (centerCoord w s i j), keyIdx nx ny w s c,
      hypotR (c.1 - (centerCoord w s i j).1) (c.2 - (centerCoord w s i j).2)))

lemma cellCorners_eq (i j : ℕ) (w s : ℚ) :
    cellCorners (i : ℚ) (j : ℚ) w s =
      [cornerCoord w s i j, cornerCoord w s (i + 1) j,
       cornerCoord w s (i + 1) (j + 1), cornerCoord w s i (j + 1)] := by
  simp only [cellCorners, cornerCoord, List.cons.injEq, Prod.mk.injEq, and_true,
    List.nil_eq]
  and_intros <;> first | trivial | (push_cast; ring)

lemma addCellEdges_spec {nx ny : ℕ} {w s : ℚ} (hs : s ≠ 0) {i j : ℕ}
    (hi : i < nx) (hj : j < ny) (es : List GEdge) :
    addCellEdges (gridNodes nx ny w s) w s i j es = addEdgeList es (cellAdds nx ny w s i j) := by
  have hcen : dictFind (gridNodes nx ny w s) (centerCoord w s i j)
      = some (keyIdx nx ny w s (centerCoord w s i j)) :=
    dictFind_gridNodes hs (centerCoord_mem_allKeys hi hj)
  have hc1 : dictFind (gridNodes nx ny w s) (cornerCoord w s i j)
      = some (keyIdx nx ny w s (cornerCoord w s i j)) :=
    dictFind_gridNodes hs (cornerCoord_mem_allKeys (le_of_lt hi) (le_of_lt hj))
  have hc2 : dictFind (gridNodes nx ny w s) (cornerCoord w s (i + 1) j)
      = some (keyIdx nx ny w s (cornerCoord w s (i + 1) j)) :=
    dictFind_gridNodes hs (cornerCoord_mem_allKeys (by omega) (le_of_lt hj))
  have hc3 : dictFind (gridNodes nx ny w s) (cornerCoord w s (i + 1) (j + 1))
      = some (keyIdx nx ny w s (cornerCoord w s (i + 1) (j + 1))) :=
    dictFind_gridNodes hs (cornerCoord_mem_allKeys (by omega) (by omega))
  have hc4 : dictFind (gridNodes nx ny w s) (cornerCoord w s i (j + 1))
      = some (keyIdx nx ny w s (cornerCoord w s i (j + 1))) :=
    dictFind_gridNodes hs (cornerCoord_mem_allKeys (le_of_lt hi) (by omega))
  show addCellEdges (gridNodes nx ny w s) w s i j es = _
  rw [addCellEdges]
  have hcen2 : (-w/2 + ((i : ℚ) + 1/2) * s, ((j : ℚ) + 1/2) * s) = centerCoord w s i j := rfl
  rw [hcen2, hcen, cellCorners_eq]
  simp only [List.foldl_cons, List.foldl_nil, hc1, hc2, hc3, hc4]
  rw [cellAdds]
  simp only [List.map_cons, List.map_nil, addEdgeList, List.foldl_cons, List.foldl_nil]

/-- The (up to two) `add_edge` calls of step 4 for the corner at grid index
`(i, j)` whose dict index is `v`: east neighbour when `i+1 ≤ Nx`, north
neighbour when `j+1 ≤ Ny`. -/
noncomputable def nbrAdds (nx ny : ℕ) (w s : ℚ) (i j v : ℕ) : List (ℕ × ℕ × ℝ) :=
  (if i + 1 ≤ nx then
    [(v, keyIdx nx ny w s (cornerCoord w s (i + 1) j), hypotR s 0)] else []) ++
  (if j + 1 ≤ ny then
    [(v, keyIdx nx ny w s (cornerCoord w s i (j + 1)), hypotR 0 s)] else [])

lemma addCornerNbrEdges_corner {nx ny : ℕ} {w s : ℚ} (hs : 0 < s) {i j v : ℕ}
    (hi : i ≤ nx) (hj : j ≤ ny) (es : List GEdge) :
    addCornerNbrEdges (gridNodes nx ny w s) w s es (cornerCoord w s i j, v)
      = addEdgeList es (nbrAdds nx ny w s i j v) := by
  have hc1 : (cornerCoord w s i j).1 + w / 2 = (i : ℚ) * s := by
    simp only [cornerCoord]
    ring
  have hcond : |pyMod ((cornerCoord w s i j).1 + w / 2) s| < 1/1000000 ∧
      |pyMod (cornerCoord w s i j).2 s| < 1/1000000 := by
    rw [hc1]
    simp only [cornerCoord]
    rw [pyMod_natCast_mul i hs.ne', pyMod_natCast_mul j hs.ne', abs_zero]
    norm_num
  simp only [addCornerNbrEdges, List.foldl_cons, List.foldl_nil]
  rw [if_pos hcond]
  simp only [add_zero]
  rw [east_coord_eq, north_coord_eq]
  by_cases hie : i + 1 ≤ nx
  · rw [dictFind_gridNodes hs.ne' (cornerCoord_mem_allKeys hie hj)]
    by_cases hje : j + 1 ≤ ny
    · rw [dictFind_gridNodes hs.ne' (cornerCoord_mem_allKeys hi hje)]
      rw [nbrAdds, if_pos hie, if_pos hje]
      rfl
    · have hj2 : j = ny := by omega
      subst hj2
      rw [dictFind_gridNodes_none hs.ne' (north_overflow_not_mem hs.ne')]
      rw [nbrAdds, if_pos hie, if_neg hje]
      rfl
  · have hi2 : i = nx := by omega
    subst hi2
    rw [dictFind_gridNodes_none hs.ne' (east_overflow_not_mem hs.ne')]
    by_cases hje : j + 1 ≤ ny
    · rw [dictFind_gridNodes hs.ne' (cornerCoord_mem_allKeys hi hje)]
      rw [nbrAdds, if_neg hie, if_pos hje]
      rfl
    · have hj2 : j = ny := by omega
      subst hj2
      rw [dictFind_gridNodes_none hs.ne' (north_overflow_not_mem hs.ne')]
      rw [nbrAdds, if_neg hie, if_neg hje]
      rfl

lemma addCornerNbrEdges_center {nx ny : ℕ} {w s : ℚ} (hs : 0 < s)
    (hbig : 1/500000 ≤ s) {i j v : ℕ} (es : List GEdge) :
    addCornerNbrEdges (gridNodes nx ny w s) w s es (centerCoord w s i j, v) = es := by
  have hc1 : (centerCoord w s i j).1 + w / 2 = ((i : ℚ) + 1/2) * s := by
    simp only [centerCoord]
    ring
  have hcond : ¬(|pyMod ((centerCoord w s i j).1 + w / 2) s| < 1/1000000 ∧
      |pyMod (centerCoord w s i j).2 s| < 1/1000000) := by
    rw [hc1, pyMod_half_mul i hs.ne', abs_of_pos (by linarith)]
    rintro ⟨h1, _⟩
    linarith
  simp only [addCornerNbrEdges]
  rw [if_neg hcond]

/-- Key components of a dict slice are the original keys. -/
lemma mem_enumKeysFrom_key (ks : List (ℚ × ℚ)) : ∀ idx (p : (ℚ × ℚ) × ℕ),
    p ∈ enumKeysFrom idx ks → p.1 ∈ ks := by
  induction ks with
  | nil => intro idx p h; cases h
  | cons a ks ih =>
    intro idx p h
    rcases List.mem_cons.mp h with h | h
    · rw [h]
      exact List.mem_cons_self a ks
    · exact List.mem_cons_of_mem _ (ih (idx + 1) p h)

lemma foldl_entry_id {α β : Type} (L : List α) (step : β → α → β)
    (h : ∀ a ∈ L, ∀ b, step b a = b) : ∀ b, L.foldl step b = b := by
  induction L with
  | nil => intro b; rfl
  | cons a L ih =>
    intro b
    rw [List.foldl_cons, h a (List.mem_cons_self _ _) b]
    exact ih (fun x hx => h x (List.mem_cons_of_mem _ hx)) b

/-- All step-4 `add_edge` calls, corner by corner in dict order. -/
noncomputable def nbrAddsAll (nx ny : ℕ) (w s : ℚ) : List (ℕ × ℕ × ℝ) :=
  ((List.range (nx + 1)).product (List.range (ny + 1))).flatMap
    (fun p => nbrAdds nx ny w s p.1 p.2 (keyIdx nx ny w s (cornerCoord w s p.1 p.2)))

lemma cornerPart_fold {nx ny : ℕ} {w s : ℚ} (hs : 0 < s) (es : List GEdge) :
    (enumKeysFrom 0 (cornerKeys nx ny w s)).foldl
      (addCornerNbrEdges (gridNodes nx ny w s) w s) es
      = addEdgeList es (nbrAddsAll nx ny w s) := by
  rw [enumKeysFrom_eq_map _ _ (cornerKeys_nodup hs.ne'), cornerKeys, List.map_map,
    List.foldl_map]
  have := foldl_addEdgeList ((List.range (nx + 1)).product (List.range (ny + 1)))
    (fun p acc => addCornerNbrEdges (gridNodes nx ny w s) w s acc
      (((fun k => (k, 0 + posOf k (cornerKeys nx ny w s))) ∘
        fun p => (-w/2 + (p.1 : ℚ) * s, (p.2 : ℚ) * s)) p))
    (fun p => nbrAdds nx ny w s p.1 p.2 (keyIdx nx ny w s (cornerCoord w s p.1 p.2)))
    ?_ es
  · exact this
  · rintro ⟨i, j⟩ hp es2
    have hmem := List.mem_product.mp hp
    simp only [List.mem_range, Nat.lt_succ_iff] at hmem
    have hkey : ((-w/2 + ((i, j).1 : ℚ) * s, ((i, j).2 : ℚ) * s)) = cornerCoord w s i j := rfl
    simp only [Function.comp, hkey]
    have hpos : 0 + posOf (cornerCoord w s i j) (cornerKeys nx ny w s)
        = keyIdx nx ny w s (cornerCoord w s i j) := by
      rw [Nat.zero_add, keyIdx, allKeys,
        posOf_append_left _ (mem_cornerKeys.mpr ⟨i, j, hmem.1, hmem.2, rfl⟩)]
    rw [hpos]
    exact addCornerNbrEdges_corner hs hmem.1 hmem.2 es2

lemma gridNodes_foldl_nbr {nx ny : ℕ} {w s : ℚ} (hs : 0 < s) (hbig : 1/500000 ≤ s)
    (es : List GEdge) :
    (gridNodes nx ny w s).foldl (addCornerNbrEdges (gridNodes nx ny w s) w s) es
      = addEdgeList es (nbrAddsAll nx ny w s) := by
  nth_rewrite 2 [gridNodes_eq hs.ne']
  rw [allKeys, enumKeysFrom_append, List.foldl_append, cornerPart_fold hs es]
  refine foldl_entry_id _ _ ?_ _
  intro entry hentry b
  have hkey := mem_enumKeysFrom_key _ _ _ hentry
  obtain ⟨i, j, _, _, hk⟩ := mem_centerKeys.mp hkey
  obtain ⟨k, v⟩ := entry
  simp only at hk
  rw [hk]
  exact addCornerNbrEdges_center hs hbig b

/-- All step-3 `add_edge` calls, cell by cell in loop order. -/
noncomputable def ccAddsAll (nx ny : ℕ) (w s : ℚ) : List (ℕ × ℕ × ℝ) :=
  ((List.range nx).product (List.range ny)).flatMap
    (fun p => cellAdds nx ny w s p.1 p.2)

lemma centerCornerEdges_spec {nx ny : ℕ} {w s : ℚ} (hs : s ≠ 0) :
    centerCornerEdges (gridNodes nx ny w s) w s nx ny
      = addEdgeList [] (ccAddsAll nx ny w s) := by
  rw [centerCornerEdges, ccAddsAll, product_flatMap]
  refine foldl_addEdgeList (List.range nx) _
    (fun i => (List.range ny).flatMap (fun j => cellAdds nx ny w s i j)) ?_ []
  intro i hi es
  refine foldl_addEdgeList (List.range ny) _ (fun j => cellAdds nx ny w s i j) ?_ es
  intro j hj es2
  exact addCellEdges_spec hs (List.mem_range.mp hi) (List.mem_range.mp hj) es2

lemma gridEdges_spec {nx ny : ℕ} {w s : ℚ} (hs : 0 < s) (hbig : 1/500000 ≤ s) :
    gridEdges nx ny w s
      = addEdgeList [] (ccAddsAll nx ny w s ++ nbrAddsAll nx ny w s) := by
  rw [gridEdges, centerCornerEdges_spec hs.ne', gridNodes_foldl_nbr hs hbig,
    addEdgeList_append]

/-! ### Edge counting -/

lemma length_product_range (a b : ℕ) :
    ((List.range a).product (List.range b)).length = a * b :=
  (List.length_product _ _).trans (by rw [List.length_range, List.length_range])

lemma length_cellAdds (nx ny : ℕ) (w s : ℚ) (i j : ℕ) :
    (cellAdds nx ny w s i j).length = 4 := by
  rw [cellAdds, List.length_map]
  rfl

lemma length_ccAddsAll (nx ny : ℕ) (w s : ℚ) :
    (ccAddsAll nx ny w s).length = 4 * (nx * ny) := by
  rw [ccAddsAll, length_flatMap_const _ _ 4 (fun a _ => length_cellAdds nx ny w s a.1 a.2),
    length_product_range]
  ring

lemma length_nbrAddsAll (nx ny : ℕ) (w s : ℚ) :
    (nbrAddsAll nx ny w s).length = nx * (ny + 1) + (nx + 1) * ny := by
  rw [nbrAddsAll, product_flatMap]
  have hinner : ∀ i, ((List.range (ny + 1)).flatMap (fun j =>
      nbrAdds nx ny w s i j (keyIdx nx ny w s (cornerCoord w s i j)))).length
      = (if i + 1 ≤ nx then ny + 1 else 0) + ny := by
    intro i
    simp only [nbrAdds]
    rw [length_flatMap_append]
    have h1 : ((List.range (ny + 1)).flatMap (fun j => if i + 1 ≤ nx then
        [(keyIdx nx ny w s (cornerCoord w s i j),
          keyIdx nx ny w s (cornerCoord w s (i + 1) j), hypotR s 0)] else [])).length
        = if i + 1 ≤ nx then ny + 1 else 0 := by
      by_cases hie : i + 1 ≤ nx
      · rw [if_pos hie, length_flatMap_const _ _ 1 (fun j _ => by rw [if_pos hie]; rfl),
          List.length_range, Nat.mul_one]
      · rw [if_neg hie, length_flatMap_const _ _ 0 (fun j _ => by rw [if_neg hie]; rfl),
          Nat.mul_zero]
    have h2 : ((List.range (ny + 1)).flatMap (fun j => if j + 1 ≤ ny then
        [(keyIdx nx ny w s (cornerCoord w s i j),
          keyIdx nx ny w s (cornerCoord w s i (j + 1)), hypotR 0 s)] else [])).length
        = ny := by
      rw [List.range_succ, List.flatMap_append,
        List.length_append, length_flatMap_const _ _ 1
          (fun j hj => by
            rw [if_pos (by have := List.mem_range.mp hj; omega : j + 1 ≤ ny)]
            rfl),
        List.length_range, Nat.mul_one]
      simp
    rw [h1, h2]
  rw [List.range_succ, List.flatMap_append, List.length_append,
    length_flatMap_const _ _ (ny + 1 + ny)
      (fun i hi => by
        rw [hinner i, if_pos (by have := List.mem_range.mp hi; omega : i + 1 ≤ nx)]),
    List.length_range]
  have hlast : (([nx] : List ℕ).flatMap (fun i => (List.range (ny + 1)).flatMap (fun j =>
      nbrAdds nx ny w s i j (keyIdx nx ny w s (cornerCoord w s i j))))).length
      = ny := by
    simp only [List.flatMap_cons, List.flatMap_nil, List.append_nil]
    rw [hinner nx, if_neg (by omega)]
    omega
  rw [hlast]
  ring

/-! ### Explicit node index formulas -/

lemma posOf_lt_length {α : Type} [DecidableEq α] {k : α} {ks : List α} (h : k ∈ ks) :
    posOf k ks < ks.length := by
  induction ks with
  | nil => cases h
  | cons a ks ih =>
    by_cases ha : a = k
    · simp [posOf, ha]
    · have hb : k ∈ ks := by
        rcases List.mem_cons.mp h with hh | hh
        · exact absurd hh.symm ha
        · exact hh
      simp only [posOf, if_neg ha, List.length_cons]
      exact Nat.succ_lt_succ (ih hb)

lemma posOf_append_right {α : Type} [DecidableEq α] {k : α} (ls : List α) :
    ∀ ks : List α, k ∉ ks → posOf k (ks ++ ls) = ks.length + posOf k ls := by
  intro ks
  induction ks with
  | nil => intro _; simp [posOf]
  | cons a ks ih =>
    intro h
    have ha : a ≠ k := fun he => h (he ▸ List.mem_cons_self a ks)
    rw [List.cons_append]
    simp only [posOf, if_neg ha, List.length_cons]
    rw [ih (fun hm => h (List.mem_cons_of_mem _ hm))]
    omega

lemma posOf_append_left_poly {α : Type} [DecidableEq α] {k : α} (ls : List α) :
    ∀ ks : List α, k ∈ ks → posOf k (ks ++ ls) = posOf k ks := by
  intro ks
  induction ks with
  | nil => intro h; cases h
  | cons a ks ih =>
    intro h
    by_cases ha : a = k
    · simp [posOf, ha]
    · have hb : k ∈ ks := by
        rcases List.mem_cons.mp h with hh | hh
        · exact absurd hh.symm ha
        · exact hh
      simp [posOf, ha, ih hb]

lemma posOf_range {j b : ℕ} (h : j < b) : posOf j (List.range b) = j := by
  induction b with
  | zero => omega
  | succ b ih =>
    rw [List.range_succ]
    by_cases hj : j < b
    · rw [posOf_append_left_poly _ _ (List.mem_range.mpr hj)]
      exact ih hj
    · have hjb : j = b := by omega
      subst hjb
      rw [posOf_append_right _ _ (by simp), List.length_range]
      simp [posOf]

lemma posOf_map {α β : Type} [DecidableEq α] [DecidableEq β] (f : α → β)
    (l : List α) (a : α) (hinj : ∀ x ∈ l, f x = f a → x = a) :
    posOf (f a) (l.map f) = posOf a l := by
  induction l with
  | nil => rfl
  | cons x l ih =>
    by_cases hxa : x = a
    · subst hxa
      simp [posOf]
    · have hfx : f x ≠ f a := fun he => hxa (hinj x (List.mem_cons_self x l) he)
      simp only [List.map_cons, posOf, if_neg hxa, if_neg hfx]
      rw [ih (fun y hy => hinj y (List.mem_cons_of_mem _ hy))]

lemma product_map_left {α β γ : Type} (f : α → β) (A : List α) (B : List γ) :
    (A.map f).product B = (A.product B).map (fun p => (f p.1, p.2)) := by
  rw [List.product, List.product]
  induction A with
  | nil => rfl
  | cons a A ih =>
    simp only [List.map_cons, List.flatMap_cons, List.map_append, ih, List.map_map]
    congr 1

lemma posOf_product_range {i j a b : ℕ} (hi : i < a) (hj : j < b) :
    posOf (i, j) ((List.range a).product (List.range b)) = i * b + j := by
  induction i generalizing a with
  | zero =>
    obtain ⟨a2, rfl⟩ : ∃ a2, a = a2 + 1 := ⟨a - 1, by omega⟩
    rw [List.range_succ_eq_map, List.product, List.flatMap_cons,
      posOf_append_left_poly _ _ (List.mem_map.mpr ⟨j, List.mem_range.mpr hj, rfl⟩)]
    have h0 : ((0 : ℕ), j) = (fun b2 => ((0 : ℕ), b2)) j := rfl
    rw [h0, posOf_map (fun b2 => ((0 : ℕ), b2)) _ j (fun y _ he => by simpa using he)]
    rw [posOf_range hj]
    omega
  | succ i ih =>
    obtain ⟨a2, rfl⟩ : ∃ a2, a = a2 + 1 := ⟨a - 1, by omega⟩
    rw [List.range_succ_eq_map, List.product, List.flatMap_cons]
    rw [posOf_append_right]
    · rw [List.length_map, List.length_range]
      have hmap : (((List.range a2).map Nat.succ).flatMap
          (fun a => (List.range b).map (Prod.mk a)))
          = (((List.range a2).product (List.range b)).map
              (fun p : ℕ × ℕ => (Nat.succ p.1, p.2))) := by
        rw [← product_map_left]
        rfl
      rw [hmap]
      have hsucc : ((i + 1 : ℕ), j) = (fun p : ℕ × ℕ => (Nat.succ p.1, p.2)) (i, j) := rfl
      rw [hsucc, posOf_map (fun p : ℕ × ℕ => (Nat.succ p.1, p.2))
        ((List.range a2).product (List.range b)) (i, j) (fun y _ he => by
          obtain ⟨y1, y2⟩ := y
          simp only [Prod.mk.injEq] at he ⊢
          omega)]
      rw [ih (by omega)]
      ring
    · intro hmem
      obtain ⟨y, _, he⟩ := List.mem_map.mp hmem
      simp only [Prod.mk.injEq] at he
      omega

lemma keyIdx_corner_formula {nx ny : ℕ} {w s : ℚ} (hs : s ≠ 0) {i j : ℕ}
    (hi : i ≤ nx) (hj : j ≤ ny) :
    keyIdx nx ny w s (cornerCoord w s i j) = i * (ny + 1) + j := by
  rw [keyIdx, allKeys, posOf_append_left _ (mem_cornerKeys.mpr ⟨i, j, hi, hj, rfl⟩)]
  rw [cornerKeys]
  have hform : cornerCoord w s i j
      = (fun p : ℕ × ℕ => (-w/2 + (p.1 : ℚ) * s, (p.2 : ℚ) * s)) (i, j) := rfl
  rw [hform, posOf_map (fun p : ℕ × ℕ => (-w/2 + (p.1 : ℚ) * s, (p.2 : ℚ) * s))
    _ (i, j) (fun y hy he => by
      have h2 : cornerCoord w s y.1 y.2 = cornerCoord w s i j := he
      have := cornerCoord_inj hs h2
      obtain ⟨y1, y2⟩ := y
      simp only [Prod.mk.injEq]
      exact ⟨this.1, this.2⟩)]
  exact posOf_product_range (by omega) (by omega)

lemma keyIdx_center_formula {nx ny : ℕ} {w s : ℚ} (hs : s ≠ 0) {i j : ℕ}
    (hi : i < nx) (hj : j < ny) :
    keyIdx nx ny w s (centerCoord w s i j) = (nx + 1) * (ny + 1) + (i * ny + j) := by
  rw [keyIdx, allKeys, posOf_append_right _ _ (fun hmem =>
    (corner_center_disjoint hs) hmem (mem_centerKeys.mpr ⟨i, j, hi, hj, rfl⟩)),
    length_cornerKeys]
  rw [centerKeys]
  have hform : centerCoord w s i j
      = (fun p : ℕ × ℕ => (-w/2 + ((p.1 : ℚ) + 1/2) * s, ((p.2 : ℚ) + 1/2) * s)) (i, j) := rfl
  rw [hform, posOf_map (fun p : ℕ × ℕ => (-w/2 + ((p.1 : ℚ) + 1/2) * s, ((p.2 : ℚ) + 1/2) * s))
    _ (i, j) (fun y hy he => by
      have h2 : centerCoord w s y.1 y.2 = centerCoord w s i j := he
      have := centerCoord_inj hs h2
      obtain ⟨y1, y2⟩ := y
      simp only [Prod.mk.injEq]
      exact ⟨this.1, this.2⟩)]
  rw [posOf_product_range hi hj]

/-! ### Distinctness of all added edges -/

lemma rowMajor_inj {b i j i2 j2 : ℕ} (hj : j < b) (hj2 : j2 < b)
    (h : i * b + j = i2 * b + j2) : i = i2 ∧ j = j2 := by
  have h2 : b * i + j = b * i2 + j2 := by
    rw [Nat.mul_comm b i, Nat.mul_comm b i2]
    exact h
  have hmod : j = j2 := by
    have h3 := congrArg (· % b) h2
    simp only [Nat.mul_add_mod] at h3
    rwa [Nat.mod_eq_of_lt hj, Nat.mod_eq_of_lt hj2] at h3
  subst hmod
  have h4 : b * i = b * i2 := by omega
  exact ⟨Nat.eq_of_mul_eq_mul_left (by omega) h4, rfl⟩

lemma keyIdx_corner_lt {nx ny : ℕ} {w s : ℚ} (hs : s ≠ 0) {i j : ℕ}
    (hi : i ≤ nx) (hj : j ≤ ny) :
    keyIdx nx ny w s (cornerCoord w s i j) < (nx + 1) * (ny + 1) := by
  have hmem : cornerCoord w s i j ∈ cornerKeys nx ny w s :=
    mem_cornerKeys.mpr ⟨i, j, hi, hj, rfl⟩
  rw [keyIdx, allKeys, posOf_append_left _ hmem]
  have := posOf_lt_length hmem
  rwa [length_cornerKeys] at this

lemma keyIdx_center_ge {nx ny : ℕ} {w s : ℚ} (hs : s ≠ 0) {i j : ℕ}
    (hi : i < nx) (hj : j < ny) :
    (nx + 1) * (ny + 1) ≤ keyIdx nx ny w s (centerCoord w s i j) := by
  rw [keyIdx_center_formula hs hi hj]
  exact Nat.le_add_right _ _

lemma normPair_of_ge {a b : ℕ} (h : b ≤ a) : normPair a b = (b, a) := by
  simp only [normPair, Prod.mk.injEq]
  omega

lemma cc_norm_elem_char {nx ny : ℕ} {w s : ℚ} (hs : s ≠ 0) {i j : ℕ}
    (hi : i < nx) (hj : j < ny) {x : ℕ × ℕ}
    (hx : x ∈ addNorms (cellAdds nx ny w s i j)) :
    (∃ ic jc, ic ≤ nx ∧ jc ≤ ny ∧ x.1 = keyIdx nx ny w s (cornerCoord w s ic jc)) ∧
      x.2 = keyIdx nx ny w s (centerCoord w s i j) := by
  have hform : addNorms (cellAdds nx ny w s i j) =
      [normPair (keyIdx nx ny w s (centerCoord w s i j))
         (keyIdx nx ny w s (cornerCoord w s i j)),
       normPair (keyIdx nx ny w s (centerCoord w s i j))
         (keyIdx nx ny w s (cornerCoord w s (i + 1) j)),
       normPair (keyIdx nx ny w s (centerCoord w s i j))
         (keyIdx nx ny w s (cornerCoord w s (i + 1) (j + 1))),
       normPair (keyIdx nx ny w s (centerCoord w s i j))
         (keyIdx nx ny w s (cornerCoord w s i (j + 1)))] := rfl
  rw [hform] at hx
  have hge := keyIdx_center_ge (w := w) hs hi hj
  have horient : ∀ ic jc, ic ≤ nx → jc ≤ ny →
      normPair (keyIdx nx ny w s (centerCoord w s i j))
        (keyIdx nx ny w s (cornerCoord w s ic jc))
      = (keyIdx nx ny w s (cornerCoord w s ic jc),
         keyIdx nx ny w s (centerCoord w s i j)) := by
    intro ic jc hic hjc
    exact normPair_of_ge (le_trans (le_of_lt (keyIdx_corner_lt hs hic hjc)) hge)
  rcases List.mem_cons.mp hx with he | hx
  · rw [horient i j (by omega) (by omega)] at he
    exact ⟨⟨i, j, by omega, by omega, by rw [he]⟩, by rw [he]⟩
  rcases List.mem_cons.mp hx with he | hx
  · rw [horient (i + 1) j (by omega) (by omega)] at he
    exact ⟨⟨i + 1, j, by omega, by omega, by rw [he]⟩, by rw [he]⟩
  rcases List.mem_cons.mp hx with he | hx
  · rw [horient (i + 1) (j + 1) (by omega) (by omega)] at he
    exact ⟨⟨i + 1, j + 1, by omega, by omega, by rw [he]⟩, by rw [he]⟩
  rcases List.mem_cons.mp hx with he | hx
  · rw [horient i (j + 1) (by omega) (by omega)] at he
    exact ⟨⟨i, j + 1, by omega, by omega, by rw [he]⟩, by rw [he]⟩
  · cases hx

lemma ccAddsAll_norms_nodup {nx ny : ℕ} {w s : ℚ} (hs : s ≠ 0) :
    (addNorms (ccAddsAll nx ny w s)).Nodup := by
  rw [ccAddsAll, addNorms, List.map_flatMap, List.nodup_flatMap]
  constructor
  · rintro ⟨i, j⟩ hp
    have hmem := List.mem_product.mp hp
    simp only [List.mem_range] at hmem
    obtain ⟨hi, hj⟩ := hmem
    have hge := keyIdx_center_ge (w := w) hs hi hj
    have hlt : ∀ ic jc, ic ≤ nx → jc ≤ ny →
        keyIdx nx ny w s (cornerCoord w s ic jc)
          < keyIdx nx ny w s (centerCoord w s i j) :=
      fun ic jc hic hjc => lt_of_lt_of_le (keyIdx_corner_lt hs hic hjc) hge
    have hform : (cellAdds nx ny w s (i, j).1 (i, j).2).map (fun t => normPair t.1 t.2.1) =
        [normPair (keyIdx nx ny w s (centerCoord w s i j))
           (keyIdx nx ny w s (cornerCoord w s i j)),
         normPair (keyIdx nx ny w s (centerCoord w s i j))
           (keyIdx nx ny w s (cornerCoord w s (i + 1) j)),
         normPair (keyIdx nx ny w s (centerCoord w s i j))
           (keyIdx nx ny w s (cornerCoord w s (i + 1) (j + 1))),
         normPair (keyIdx nx ny w s (centerCoord w s i j))
           (keyIdx nx ny w s (cornerCoord w s i (j + 1)))] := rfl
    rw [hform]
    have hB : ∀ ic jc, ic ≤ nx → jc ≤ ny →
        keyIdx nx ny w s (cornerCoord w s ic jc) = ic * (ny + 1) + jc :=
      fun ic jc hic hjc => keyIdx_corner_formula hs hic hjc
    have e1 := hB i j (by omega) (by omega)
    have e2 := hB (i + 1) j (by omega) (by omega)
    have e3 := hB (i + 1) (j + 1) (by omega) (by omega)
    have e4 := hB i (j + 1) (by omega) (by omega)
    have hexp : (i + 1) * (ny + 1) = i * (ny + 1) + (ny + 1) := by ring
    have horient : ∀ ic jc, ic ≤ nx → jc ≤ ny →
        normPair (keyIdx nx ny w s (centerCoord w s i j))
          (keyIdx nx ny w s (cornerCoord w s ic jc))
        = (keyIdx nx ny w s (cornerCoord w s ic jc),
           keyIdx nx ny w s (centerCoord w s i j)) :=
      fun ic jc hic hjc => normPair_of_ge (le_of_lt (hlt ic jc hic hjc))
    rw [horient i j (by omega) (by omega), horient (i + 1) j (by omega) (by omega),
      horient (i + 1) (j + 1) (by omega) (by omega), horient i (j + 1) (by omega) (by omega),
      e1, e2, e3, e4, hexp]
    simp only [List.nodup_cons, List.mem_cons, List.mem_singleton, List.not_mem_nil,
      Prod.mk.injEq, List.nodup_nil, not_false_iff, and_true, not_or]
    omega
  · have hnd : (((List.range nx).product (List.range ny))).Nodup :=
      List.Nodup.product (List.nodup_range _) (List.nodup_range _)
    refine List.Pairwise.imp_of_mem ?_ hnd
    intro p q hp hq hne
    intro x hxp hxq
    obtain ⟨ip, jp⟩ := p
    obtain ⟨iq, jq⟩ := q
    have hmp := List.mem_product.mp hp
    have hmq := List.mem_product.mp hq
    simp only [List.mem_range] at hmp hmq
    have hcp := (cc_norm_elem_char hs hmp.1 hmp.2 hxp).2
    have hcq := (cc_norm_elem_char hs hmq.1 hmq.2 hxq).2
    have hC : keyIdx nx ny w s (centerCoord w s ip jp)
        = keyIdx nx ny w s (centerCoord w s iq jq) := by rw [← hcp, ← hcq]
    rw [keyIdx_center_formula hs hmp.1 hmp.2, keyIdx_center_formula hs hmq.1 hmq.2] at hC
    have hC2 : ip * ny + jp = iq * ny + jq := by omega
    have := rowMajor_inj hmp.2 hmq.2 hC2
    exact hne (by simp [this.1, this.2])

lemma normPair_of_le {a b : ℕ} (h : a ≤ b) : normPair a b = (a, b) := by
  simp only [normPair, Prod.mk.injEq]
  omega

lemma addNorms_nbrAdds {nx ny : ℕ} {w s : ℚ} (i j v : ℕ) :
    addNorms (nbrAdds nx ny w s i j v) =
      (if i + 1 ≤ nx then
        [normPair v (keyIdx nx ny w s (cornerCoord w s (i + 1) j))] else []) ++
      (if j + 1 ≤ ny then
        [normPair v (keyIdx nx ny w s (cornerCoord w s i (j + 1)))] else []) := by
  rw [nbrAdds, addNorms, List.map_append]
  congr 1 <;> (split <;> rfl)

lemma nbr_norm_char {nx ny : ℕ} {w s : ℚ} (hs : s ≠ 0) {i j : ℕ}
    (hi : i ≤ nx) (hj : j ≤ ny) {x : ℕ × ℕ}
    (hx : x ∈ addNorms (nbrAdds nx ny w s i j (keyIdx nx ny w s (cornerCoord w s i j)))) :
    x.1 = keyIdx nx ny w s (cornerCoord w s i j) ∧ x.2 < (nx + 1) * (ny + 1) := by
  rw [addNorms_nbrAdds] at hx
  have hexp : (i + 1) * (ny + 1) = i * (ny + 1) + (ny + 1) := by ring
  rcases List.mem_append.mp hx with hx | hx
  · by_cases hie : i + 1 ≤ nx
    · rw [if_pos hie, List.mem_singleton] at hx
      have hlt : keyIdx nx ny w s (cornerCoord w s i j)
          ≤ keyIdx nx ny w s (cornerCoord w s (i + 1) j) := by
        rw [keyIdx_corner_formula hs hi hj, keyIdx_corner_formula hs hie hj, hexp]
        omega
      rw [normPair_of_le hlt] at hx
      subst hx
      exact ⟨rfl, keyIdx_corner_lt hs hie hj⟩
    · rw [if_neg hie] at hx
      cases hx
  · by_cases hje : j + 1 ≤ ny
    · rw [if_pos hje, List.mem_singleton] at hx
      have hlt : keyIdx nx ny w s (cornerCoord w s i j)
          ≤ keyIdx nx ny w s (cornerCoord w s i (j + 1)) := by
        rw [keyIdx_corner_formula hs hi hj, keyIdx_corner_formula hs hi hje]
        omega
      rw [normPair_of_le hlt] at hx
      subst hx
      exact ⟨rfl, keyIdx_corner_lt hs hi hje⟩
    · rw [if_neg hje] at hx
      cases hx

lemma nbrAddsAll_norms_nodup {nx ny : ℕ} {w s : ℚ} (hs : s ≠ 0) :
    (addNorms (nbrAddsAll nx ny w s)).Nodup := by
  rw [nbrAddsAll, addNorms, List.map_flatMap, List.nodup_flatMap]
  constructor
  · rintro ⟨i, j⟩ hp
    have hmem := List.mem_product.mp hp
    simp only [List.mem_range, Nat.lt_succ_iff] at hmem
    obtain ⟨hi, hj⟩ := hmem
    show (addNorms (nbrAdds nx ny w s i j
      (keyIdx nx ny w s (cornerCoord w s i j)))).Nodup
    rw [addNorms_nbrAdds]
    by_cases hie : i + 1 ≤ nx <;> by_cases hje : j + 1 ≤ ny
    · rw [if_pos hie, if_pos hje]
      have hexp : (i + 1) * (ny + 1) = i * (ny + 1) + (ny + 1) := by ring
      have hne : keyIdx nx ny w s (cornerCoord w s (i + 1) j)
          ≠ keyIdx nx ny w s (cornerCoord w s i (j + 1)) := by
        rw [keyIdx_corner_formula hs hie hj, keyIdx_corner_formula hs hi hje, hexp]
        omega
      have h1 : keyIdx nx ny w s (cornerCoord w s i j)
          ≤ keyIdx nx ny w s (cornerCoord w s (i + 1) j) := by
        rw [keyIdx_corner_formula hs hi hj, keyIdx_corner_formula hs hie hj, hexp]
        omega
      have h2 : keyIdx nx ny w s (cornerCoord w s i j)
          ≤ keyIdx nx ny w s (cornerCoord w s i (j + 1)) := by
        rw [keyIdx_corner_formula hs hi hj, keyIdx_corner_formula hs hi hje]
        omega
      rw [List.singleton_append, normPair_of_le h1, normPair_of_le h2]
      simp only [List.nodup_cons, List.mem_singleton, List.nodup_singleton, and_true,
        Prod.mk.injEq, not_and]
      exact ⟨fun _ => hne, by simp, List.nodup_nil⟩
    · rw [if_pos hie, if_neg hje]
      simp
    · rw [if_neg hie, if_pos hje]
      simp
    · rw [if_neg hie, if_neg hje]
      simp
  · have hnd : (((List.range (nx + 1)).product (List.range (ny + 1)))).Nodup :=
      List.Nodup.product (List.nodup_range _) (List.nodup_range _)
    refine List.Pairwise.imp_of_mem ?_ hnd
    intro p q hp hq hne x hxp hxq
    obtain ⟨ip, jp⟩ := p
    obtain ⟨iq, jq⟩ := q
    have hmp := List.mem_product.mp hp
    have hmq := List.mem_product.mp hq
    simp only [List.mem_range, Nat.lt_succ_iff] at hmp hmq
    have hcp := (nbr_norm_char hs hmp.1 hmp.2 hxp).1
    have hcq := (nbr_norm_char hs hmq.1 hmq.2 hxq).1
    have hv : keyIdx nx ny w s (cornerCoord w s ip jp)
        = keyIdx nx ny w s (cornerCoord w s iq jq) := by rw [← hcp, ← hcq]
    rw [keyIdx_corner_formula hs hmp.1 hmp.2, keyIdx_corner_formula hs hmq.1 hmq.2] at hv
    have := rowMajor_inj (by omega) (by omega) hv
    exact hne (by simp [this.1, this.2])

lemma cc_nbr_norms_disjoint {nx ny : ℕ} {w s : ℚ} (hs : s ≠ 0) :
    (addNorms (ccAddsAll nx ny w s)).Disjoint (addNorms (nbrAddsAll nx ny w s)) := by
  intro x hxc hxn
  rw [ccAddsAll, addNorms, List.map_flatMap] at hxc
  obtain ⟨p, hp, hxp⟩ := List.mem_flatMap.mp hxc
  have hmp := List.mem_product.mp hp
  simp only [List.mem_range] at hmp
  have hchar := cc_norm_elem_char hs hmp.1 hmp.2 (x := x) hxp
  rw [nbrAddsAll, addNorms, List.map_flatMap] at hxn
  obtain ⟨q, hq, hxq⟩ := List.mem_flatMap.mp hxn
  have hmq := List.mem_product.mp hq
  simp only [List.mem_range, Nat.lt_succ_iff] at hmq
  have hchar2 := (nbr_norm_char hs hmq.1 hmq.2 (x := x) hxq).2
  have hge := keyIdx_center_ge (w := w) hs hmp.1 hmp.2
  rw [← hchar.2] at hge
  omega

lemma bigNorms_nodup {nx ny : ℕ} {w s : ℚ} (hs : s ≠ 0) :
    (addNorms (ccAddsAll nx ny w s ++ nbrAddsAll nx ny w s)).Nodup := by
  rw [addNorms, List.map_append]
  exact List.nodup_append.mpr ⟨ccAddsAll_norms_nodup hs, nbrAddsAll_norms_nodup hs,
    cc_nbr_norms_disjoint hs⟩

lemma gridEdges_length {nx ny : ℕ} {w s : ℚ} (hs : 0 < s) (hbig : 1/500000 ≤ s) :
    (gridEdges nx ny w s).length
      = 4 * (nx * ny) + (nx * (ny + 1) + (nx + 1) * ny) := by
  rw [gridEdges_spec hs hbig,
    addEdgeList_fresh_length _ _ (bigNorms_nodup hs.ne') (by intro p _ h; simp [edgeNorms] at h),
    List.length_nil, List.length_append, length_ccAddsAll, length_nbrAddsAll]
  omega

/-- C2 (amended): for spacing at least `2·10⁻⁶` (so that cell centers always
fail the builder's `1e-6` corner-tolerance test) and both dimensions at least
`spacing`, the built graph has exactly `(Nx+1)(Ny+1) + Nx·Ny` nodes and
`4·Nx·Ny + Nx·(Ny+1) + Ny·(Nx+1)` edges, where `Nx = round(width/spacing)`
and `Ny = round(length/spacing)`. -/
theorem buildGridXGraph_counts (width length spacing : ℚ)
    (hbig : 1/500000 ≤ spacing) (hw : spacing ≤ width) (hl : spacing ≤ length) :
    nodeCountOf (buildGridXGraph width length spacing)
        = ((pyRound (width / spacing)).toNat + 1) * ((pyRound (length / spacing)).toNat + 1)
          + (pyRound (width / spacing)).toNat * (pyRound (length / spacing)).toNat ∧
      edgeCountOf (buildGridXGraph width length spacing)
        = 4 * ((pyRound (width / spacing)).toNat * (pyRound (length / spacing)).toNat)
          + (pyRound (width / spacing)).toNat * ((pyRound (length / spacing)).toNat + 1)
          + (pyRound (length / spacing)).toNat * ((pyRound (width / spacing)).toNat + 1) := by
  have hs : 0 < spacing := lt_of_lt_of_le (by norm_num) hbig
  rw [buildGridXGraph_ok width length spacing hs hw hl]
  constructor
  · show (gridNodes _ _ _ _).length = _
    exact gridNodes_length hs.ne'
  · show (gridEdges _ _ _ _).length = _
    rw [gridEdges_length hs hbig]
    ring

/-- Witness for `buildGridXGraph_counts` on the unit 1×1 grid with spacing 1:
5 nodes and 8 edges. -/
theorem buildGridXGraph_counts_witness :
    nodeCountOf (buildGridXGraph 1 1 1) = 5 ∧ edgeCountOf (buildGridXGraph 1 1 1) = 8 := by
  obtain ⟨h1, h2⟩ := buildGridXGraph_counts 1 1 1 (by norm_num) (by norm_num) (by norm_num)
  constructor
  · rw [h1]
    with_unfolding_all decide
  · rw [h2]
    with_unfolding_all decide

/-! ### Step 4 when the spacing is below the corner tolerance -/

lemma center_east_coord_eq {w s : ℚ} (i j : ℕ) :
    ((centerCoord w s i j).1 + s, (centerCoord w s i j).2) = centerCoord w s (i + 1) j := by
  simp only [centerCoord, Prod.mk.injEq]
  and_intros <;> first | trivial | (push_cast; ring)

lemma center_north_coord_eq {w s : ℚ} (i j : ℕ) :
    ((centerCoord w s i j).1, (centerCoord w s i j).2 + s) = centerCoord w s i (j + 1) := by
  simp only [centerCoord, Prod.mk.injEq]
  and_intros <;> first | trivial | (push_cast; ring)

lemma centerCoord_mem_allKeys_iff {nx ny : ℕ} {w s : ℚ} (hs : s ≠ 0) {a b : ℕ} :
    centerCoord w s a b ∈ allKeys nx ny w s ↔ (a < nx ∧ b < ny) := by
  constructor
  · intro h
    rcases List.mem_append.mp h with h | h
    · obtain ⟨i2, j2, _, _, he⟩ := mem_cornerKeys.mp h
      exact absurd he.symm (cornerCoord_ne_centerCoord hs i2 j2 a b)
    · obtain ⟨i2, j2, hi2, hj2, he⟩ := mem_centerKeys.mp h
      obtain ⟨h1, h2⟩ := centerCoord_inj hs he.symm
      exact ⟨h1 ▸ hi2, h2 ▸ hj2⟩
  · rintro ⟨h1, h2⟩
    exact centerCoord_mem_allKeys h1 h2

/-- The (up to two) spurious `add_edge` calls of step 4 for the cell center at
grid index `(i, j)` when the spacing is small enough that the center passes
the `1e-6` corner-tolerance test: east and north neighbouring centers. -/
noncomputable def centerNbrAdds (nx ny : ℕ) (w s : ℚ) (i j v : ℕ) : List (ℕ × ℕ × ℝ) :=
  (if i + 1 < nx ∧ j < ny then
    [(v, keyIdx nx ny w s (centerCoord w s (i + 1) j), hypotR s 0)] else []) ++
  (if i < nx ∧ j + 1 < ny then
    [(v, keyIdx nx ny w s (centerCoord w s i (j + 1)), hypotR 0 s)] else [])

lemma addCornerNbrEdges_center_small {nx ny : ℕ} {w s : ℚ} (hs : 0 < s)
    (hsmall : s < 1/500000) {i j v : ℕ} (es : List GEdge) :
    addCornerNbrEdges (gridNodes nx ny w s) w s es (centerCoord w s i j, v)
      = addEdgeList es (centerNbrAdds nx ny w s i j v) := by
  have hc1 : (centerCoord w s i j).1 + w / 2 = ((i : ℚ) + 1/2) * s := by
    simp only [centerCoord]
    ring
  have hc2 : (centerCoord w s i j).2 = ((j : ℚ) + 1/2) * s := rfl
  have habs : |s / 2| < 1/1000000 := by
    rw [abs_of_pos (by linarith)]
    linarith
  have hcond : |pyMod ((centerCoord w s i j).1 + w / 2) s| < 1/1000000 ∧
      |pyMod (centerCoord w s i j).2 s| < 1/1000000 := by
    rw [hc1, hc2, pyMod_half_mul i hs.ne', pyMod_half_mul j hs.ne']
    exact ⟨habs, habs⟩
  simp only [addCornerNbrEdges, List.foldl_cons, List.foldl_nil]
  rw [if_pos hcond]
  simp only [add_zero]
  rw [center_east_coord_eq, center_north_coord_eq]
  by_cases hie : i + 1 < nx ∧ j < ny
  · rw [dictFind_gridNodes hs.ne' ((centerCoord_mem_allKeys_iff hs.ne').mpr hie)]
    by_cases hje : i < nx ∧ j + 1 < ny
    · rw [dictFind_gridNodes hs.ne' ((centerCoord_mem_allKeys_iff hs.ne').mpr hje)]
      rw [centerNbrAdds, if_pos hie, if_pos hje]
      rfl
    · rw [dictFind_gridNodes_none hs.ne'
        (fun h => hje ((centerCoord_mem_allKeys_iff hs.ne').mp h))]
      rw [centerNbrAdds, if_pos hie, if_neg hje]
      rfl
  · rw [dictFind_gridNodes_none hs.ne'
      (fun h => hie ((centerCoord_mem_allKeys_iff hs.ne').mp h))]
    by_cases hje : i < nx ∧ j + 1 < ny
    · rw [dictFind_gridNodes hs.ne' ((centerCoord_mem_allKeys_iff hs.ne').mpr hje)]
      rw [centerNbrAdds, if_neg hie, if_pos hje]
      rfl
    · rw [dictFind_gridNodes_none hs.ne'
        (fun h => hje ((centerCoord_mem_allKeys_iff hs.ne').mp h))]
      rw [centerNbrAdds, if_neg hie, if_neg hje]
      rfl

/-- All spurious step-4 `add_edge` calls of the small-spacing regime, center by
center in dict order. -/
noncomputable def extraAddsAll (nx ny : ℕ) (w s : ℚ) : List (ℕ × ℕ × ℝ) :=
  ((List.range nx).product (List.range ny)).flatMap
    (fun p => centerNbrAdds nx ny w s p.1 p.2 (keyIdx nx ny w s (centerCoord w s p.1 p.2)))

lemma centerPart_fold_small {nx ny : ℕ} {w s : ℚ} (hs : 0 < s) (hsmall : s < 1/500000)
    (es : List GEdge) :
    (enumKeysFrom (0 + (cornerKeys nx ny w s).length) (centerKeys nx ny w s)).foldl
      (addCornerNbrEdges (gridNodes nx ny w s) w s) es
      = addEdgeList es (extraAddsAll nx ny w s) := by
  rw [enumKeysFrom_eq_map _ _ (centerKeys_nodup hs.ne'), centerKeys, List.map_map,
    List.foldl_map]
  have := foldl_addEdgeList ((List.range nx).product (List.range ny))
    (fun p acc => addCornerNbrEdges (gridNodes nx ny w s) w s acc
      (((fun k => (k, 0 + (cornerKeys nx ny w s).length + posOf k (centerKeys nx ny w s))) ∘
        fun p => (-w/2 + ((p.1 : ℚ) + 1/2) * s, ((p.2 : ℚ) + 1/2) * s)) p))
    (fun p => centerNbrAdds nx ny w s p.1 p.2 (keyIdx nx ny w s (centerCoord w s p.1 p.2)))
    ?_ es
  · exact this
  · rintro ⟨i, j⟩ hp es2
    have hmem := List.mem_product.mp hp
    simp only [List.mem_range] at hmem
    have hkey : ((-w/2 + (((i, j).1 : ℚ) + 1/2) * s, (((i, j).2 : ℚ) + 1/2) * s))
        = centerCoord w s i j := rfl
    simp only [Function.comp, hkey]
    have hpos : 0 + (cornerKeys nx ny w s).length
          + posOf (centerCoord w s i j) (centerKeys nx ny w s)
        = keyIdx nx ny w s (centerCoord w s i j) := by
      rw [Nat.zero_add, keyIdx, allKeys, posOf_append_right _ _ (fun hmem2 =>
        (corner_center_disjoint hs.ne') hmem2
          (mem_centerKeys.mpr ⟨i, j, hmem.1, hmem.2, rfl⟩))]
    rw [hpos]
    exact addCornerNbrEdges_center_small hs hsmall es2

lemma gridNodes_foldl_nbr_small {nx ny : ℕ} {w s : ℚ} (hs : 0 < s)
    (hsmall : s < 1/500000) (es : List GEdge) :
    (gridNodes nx ny w s).foldl (addCornerNbrEdges (gridNodes nx ny w s) w s) es
      = addEdgeList es (nbrAddsAll nx ny w s ++ extraAddsAll nx ny w s) := by
  nth_rewrite 2 [gridNodes_eq hs.ne']
  rw [allKeys, enumKeysFrom_append, List.foldl_append, cornerPart_fold hs es,
    centerPart_fold_small hs hsmall, addEdgeList_append]

lemma gridEdges_spec_small {nx ny : ℕ} {w s : ℚ} (hs : 0 < s) (hsmall : s < 1/500000) :
    gridEdges nx ny w s
      = addEdgeList [] (ccAddsAll nx ny w s
          ++ (nbrAddsAll nx ny w s ++ extraAddsAll nx ny w s)) := by
  rw [gridEdges, centerCornerEdges_spec hs.ne', gridNodes_foldl_nbr_small hs hsmall]
  exact (addEdgeList_append _ _ _).symm

lemma addNorms_centerNbrAdds {nx ny : ℕ} {w s : ℚ} (i j v : ℕ) :
    addNorms (centerNbrAdds nx ny w s i j v) =
      (if i + 1 < nx ∧ j < ny then
        [normPair v (keyIdx nx ny w s (centerCoord w s (i + 1) j))] else []) ++
      (if i < nx ∧ j + 1 < ny then
        [normPair v (keyIdx nx ny w s (centerCoord w s i (j + 1)))] else []) := by
  rw [centerNbrAdds, addNorms, List.map_append]
  congr 1 <;> (split <;> rfl)

lemma extra_norm_char {nx ny : ℕ} {w s : ℚ} (hs : s ≠ 0) {i j : ℕ}
    (hi : i < nx) (hj : j < ny) {x : ℕ × ℕ}
    (hx : x ∈ addNorms (centerNbrAdds nx ny w s i j
      (keyIdx nx ny w s (centerCoord w s i j)))) :
    x.1 = keyIdx nx ny w s (centerCoord w s i j) := by
  rw [addNorms_centerNbrAdds] at hx
  rcases List.mem_append.mp hx with hx | hx
  · by_cases hie : i + 1 < nx ∧ j < ny
    · rw [if_pos hie, List.mem_singleton] at hx
      have hexp : (i + 1) * ny = i * ny + ny := by ring
      have hle : keyIdx nx ny w s (centerCoord w s i j)
          ≤ keyIdx nx ny w s (centerCoord w s (i + 1) j) := by
        rw [keyIdx_center_formula hs hi hj, keyIdx_center_formula hs hie.1 hie.2, hexp]
        omega
      rw [normPair_of_le hle] at hx
      rw [hx]
    · rw [if_neg hie] at hx
      cases hx
  · by_cases hje : i < nx ∧ j + 1 < ny
    · rw [if_pos hje, List.mem_singleton] at hx
      have hle : keyIdx nx ny w s (centerCoord w s i j)
          ≤ keyIdx nx ny w s (centerCoord w s i (j + 1)) := by
        rw [keyIdx_center_formula hs hi hj, keyIdx_center_formula hs hje.1 hje.2]
        omega
      rw [normPair_of_le hle] at hx
      rw [hx]
    · rw [if_neg hje] at hx
      cases hx

lemma extraAddsAll_norms_nodup {nx ny : ℕ} {w s : ℚ} (hs : s ≠ 0) :
    (addNorms (extraAddsAll nx ny w s)).Nodup := by
  rw [extraAddsAll, addNorms, List.map_flatMap, List.nodup_flatMap]
  constructor
  · rintro ⟨i, j⟩ hp
    have hmem := List.mem_product.mp hp
    simp only [List.mem_range] at hmem
    obtain ⟨hi, hj⟩ := hmem
    show (addNorms (centerNbrAdds nx ny w s i j
      (keyIdx nx ny w s (centerCoord w s i j)))).Nodup
    rw [addNorms_centerNbrAdds]
    by_cases hie : i + 1 < nx ∧ j < ny <;> by_cases hje : i < nx ∧ j + 1 < ny
    · rw [if_pos hie, if_pos hje]
      have hexp : (i + 1) * ny = i * ny + ny := by ring
      have hne : keyIdx nx ny w s (centerCoord w s (i + 1) j)
          ≠ keyIdx nx ny w s (centerCoord w s i (j + 1)) := by
        rw [keyIdx_center_formula hs hie.1 hie.2, keyIdx_center_formula hs hje.1 hje.2, hexp]
        omega
      have h1 : keyIdx nx ny w s (centerCoord w s i j)
          ≤ keyIdx nx ny w s (centerCoord w s (i + 1) j) := by
        rw [keyIdx_center_formula hs hi hj, keyIdx_center_formula hs hie.1 hie.2, hexp]
        omega
      have h2 : keyIdx nx ny w s (centerCoord w s i j)
          ≤ keyIdx nx ny w s (centerCoord w s i (j + 1)) := by
        rw [keyIdx_center_formula hs hi hj, keyIdx_center_formula hs hje.1 hje.2]
        omega
      rw [List.singleton_append, normPair_of_le h1, normPair_of_le h2]
      simp only [List.nodup_cons, List.mem_singleton, List.nodup_singleton, and_true,
        Prod.mk.injEq, not_and]
      exact ⟨fun _ => hne, by simp, List.nodup_nil⟩
    · rw [if_pos hie, if_neg hje]
      simp
    · rw [if_neg hie, if_pos hje]
      simp
    · rw [if_neg hie, if_neg hje]
      simp
  · have hnd : (((List.range nx).product (List.range ny))).Nodup :=
      List.Nodup.product (List.nodup_range _) (List.nodup_range _)
    refine List.Pairwise.imp_of_mem ?_ hnd
    intro p q hp hq hne x hxp hxq
    obtain ⟨ip, jp⟩ := p
    obtain ⟨iq, jq⟩ := q
    have hmp := List.mem_product.mp hp
    have hmq := List.mem_product.mp hq
    simp only [List.mem_range] at hmp hmq
    have hcp := extra_norm_char hs hmp.1 hmp.2 hxp
    have hcq := extra_norm_char hs hmq.1 hmq.2 hxq
    have hv : keyIdx nx ny w s (centerCoord w s ip jp)
        = keyIdx nx ny w s (centerCoord w s iq jq) := by rw [← hcp, ← hcq]
    rw [keyIdx_center_formula hs hmp.1 hmp.2, keyIdx_center_formula hs hmq.1 hmq.2] at hv
    have hv2 : ip * ny + jp = iq * ny + jq := by omega
    have := rowMajor_inj hmp.2 hmq.2 hv2
    exact hne (by simp [this.1, this.2])

lemma extra_norms_first_ge {nx ny : ℕ} {w s : ℚ} (hs : s ≠ 0) {x : ℕ × ℕ}
    (hx : x ∈ addNorms (extraAddsAll nx ny w s)) : (nx + 1) * (ny + 1) ≤ x.1 := by
  rw [extraAddsAll, addNorms, List.map_flatMap] at hx
  obtain ⟨p, hp, hxp⟩ := List.mem_flatMap.mp hx
  have hmp := List.mem_product.mp hp
  simp only [List.mem_range] at hmp
  have := extra_norm_char hs hmp.1 hmp.2 hxp
  rw [this]
  exact keyIdx_center_ge hs hmp.1 hmp.2

lemma nbr_extra_norms_disjoint {nx ny : ℕ} {w s : ℚ} (hs : s ≠ 0) :
    (addNorms (nbrAddsAll nx ny w s)).Disjoint (addNorms (extraAddsAll nx ny w s)) := by
  intro x hxn hxe
  rw [nbrAddsAll, addNorms, List.map_flatMap] at hxn
  obtain ⟨p, hp, hxp⟩ := List.mem_flatMap.mp hxn
  have hmp := List.mem_product.mp hp
  simp only [List.mem_range, Nat.lt_succ_iff] at hmp
  have h1 := (nbr_norm_char hs hmp.1 hmp.2 hxp).1
  have h2 : x.1 < (nx + 1) * (ny + 1) := by
    rw [h1]
    exact keyIdx_corner_lt hs hmp.1 hmp.2
  have h3 := extra_norms_first_ge hs hxe
  omega

lemma cc_extra_norms_disjoint {nx ny : ℕ} {w s : ℚ} (hs : s ≠ 0) :
    (addNorms (ccAddsAll nx ny w s)).Disjoint (addNorms (extraAddsAll nx ny w s)) := by
  intro x hxc hxe
  rw [ccAddsAll, addNorms, List.map_flatMap] at hxc
  obtain ⟨p, hp, hxp⟩ := List.mem_flatMap.mp hxc
  have hmp := List.mem_product.mp hp
  simp only [List.mem_range] at hmp
  obtain ⟨⟨ic, jc, hic, hjc, hx1⟩, -⟩ := cc_norm_elem_char hs hmp.1 hmp.2 hxp
  have h2 : x.1 < (nx + 1) * (ny + 1) := by
    rw [hx1]
    exact keyIdx_corner_lt hs hic hjc
  have h3 := extra_norms_first_ge hs hxe
  omega

lemma bigNorms_nodup_small {nx ny : ℕ} {w s : ℚ} (hs : s ≠ 0) :
    (addNorms (ccAddsAll nx ny w s
      ++ (nbrAddsAll nx ny w s ++ extraAddsAll nx ny w s))).Nodup := by
  rw [addNorms, List.map_append, List.map_append]
  refine List.nodup_append.mpr ⟨ccAddsAll_norms_nodup hs,
    List.nodup_append.mpr ⟨nbrAddsAll_norms_nodup hs, extraAddsAll_norms_nodup hs,
      nbr_extra_norms_disjoint hs⟩, ?_⟩
  intro x hxc hxo
  rcases List.mem_append.mp hxo with hxn | hxe
  · exact cc_nbr_norms_disjoint hs hxc hxn
  · exact cc_extra_norms_disjoint hs hxc hxe

/-- C2 (counterexample): at `width = 2·10⁻⁷`, `length = spacing = 10⁻⁷`
(`Nx = 2`, `Ny = 1`) the cell centers pass step 4's `1e-6` corner-tolerance
test and a spurious center-to-center edge is recorded: the build has 16 edges
while the claimed formula gives `4·2·1 + 2·(1+1) + 1·(2+1) = 15`. -/
theorem buildGridXGraph_edge_count_fails_tiny_spacing :
    (pyRound ((1/5000000 : ℚ) / (1/10000000))).toNat = 2 ∧
      (pyRound ((1/10000000 : ℚ) / (1/10000000))).toNat = 1 ∧
      edgeCountOf (buildGridXGraph (1/5000000) (1/10000000) (1/10000000)) = 16 ∧
      4 * 2 * 1 + 2 * (1 + 1) + 1 * (2 + 1) = 15 ∧ (16 : ℕ) ≠ 15 := by
  have hnx : (pyRound ((1/5000000 : ℚ) / (1/10000000))).toNat = 2 := by
    with_unfolding_all decide
  have hny : (pyRound ((1/10000000 : ℚ) / (1/10000000))).toNat = 1 := by
    with_unfolding_all decide
  refine ⟨hnx, hny, ?_, by norm_num, by norm_num⟩
  have hs : (0 : ℚ) < 1/10000000 := by norm_num
  rw [buildGridXGraph_ok (1/5000000) (1/10000000) (1/10000000) hs (by norm_num) (by norm_num)]
  show (gridEdges _ _ _ _).length = 16
  rw [hnx, hny, gridEdges_spec_small hs (by norm_num),
    addEdgeList_fresh_length _ _ (bigNorms_nodup_small hs.ne')
      (by intro p _ h; simp [edgeNorms] at h),
    List.length_nil, List.length_append, List.length_append,
    length_ccAddsAll, length_nbrAddsAll]
  show 4 * (2 * 1) + (2 * (1 + 1) + (2 + 1) * 1 + 1) = 16
  norm_num

/-! ### `find_path` of `path_calculator.py` -/

/-- `nodes.values()` in dict insertion order. -/
def nodeValues (d : NodeDict) : List ℕ := d.map (fun p => p.2)

/-- `G.nodes[i]['coord']`. A missing attribute would be a Python `KeyError`;
on every graph the builder returns each node carries a `'coord'`, so the
default of this total model is never read on the inputs considered here. -/
def coordOf (attrs : List (ℕ × (ℚ × ℚ))) (i : ℕ) : ℚ × ℚ :=
  match attrs.find? (fun p => p.1 == i) with
  | some p => p.2
  | none => (0, 0)

/-- The `euclidean` helper of `find_path`:
`math.hypot(a[0]-b[0], a[1]-b[1])`. -/
noncomputable def euclidR (a b : ℚ × ℚ) : ℝ := hypotR (a.1 - b.1) (a.2 - b.2)

/-- Python `min(x :: xs, key=key)`: left scan keeping the current best and
replacing it only on a strictly smaller key, so ties keep the earlier
element. -/
noncomputable def pyMinBy (key : ℕ → ℝ) (x : ℕ) (xs : List ℕ) : ℕ :=
  xs.foldl (fun b a => if key a < key b then a else b) x

/-- A `heapq` entry of `networkx.astar_path`:
`(priority, counter, node, dist, parent)`. -/
structure QEntry where
  pri : ℝ
  ctr : ℕ
  node : ℕ
  dist : ℝ
  parent : Option ℕ

/-- `heappush`, the heap kept as a list sorted by the `heapq` order —
lexicographic on `(priority, counter)`; the counter is unique so later
components are never compared. `heappop` is taking the head. -/
noncomputable def heapPush : List QEntry → QEntry → List QEntry
  | [], e => [e]
  | x :: xs, e =>
    if e.pri < x.pri ∨ (e.pri = x.pri ∧ e.ctr ≤ x.ctr) then e :: x :: xs
    else x :: heapPush xs e

/-- `G[curnode].items()`: the neighbours of `u` with their edge weights, in
edge insertion order (each undirected pair is stored once by `addEdge`). -/
def neighborsOf (es : List GEdge) (u : ℕ) : List (ℕ × ℝ) :=
  es.filterMap (fun e =>
    if e.u == u then some (e.v, e.weight)
    else if e.v == u then some (e.u, e.weight) else none)

/-- Python dict assignment `d[k] = v` on an association list with ℕ keys:
overwrite in place if present, else append. -/
def assocInsert {β : Type} (d : List (ℕ × β)) (k : ℕ) (v : β) : List (ℕ × β) :=
  if k ∈ d.map (fun p => p.1) then d.map (fun p => if p.1 = k then (k, v) else p)
  else d ++ [(k, v)]

/-- The path-reconstruction `while node is not None:` loop of
`networkx.astar_path`. Python appends the parent chain to `[curnode]` and
reverses; consing onto the accumulator builds that reversed list directly.
The fuel bounds the chain length (at most the size of `explored`); a missing
`explored` entry would be a `KeyError` (`none`). -/
def reconstructPath (explored : List (ℕ × Option ℕ)) :
    ℕ → List ℕ → Option ℕ → Option (List ℕ)
  | _, acc, none => some acc
  | 0, _, some _ => none
  | fuel + 1, acc, some node =>
    match explored.find? (fun p => p.1 == node) with
    | none => none
    | some p => reconstructPath explored fuel (node :: acc) p.2

/-- The `while queue:` loop of `networkx.astar_path` over our stored edge
list. State: fuel, queue, push counter, the `enqueued` dict
(node to `(ncost, h)`) and the `explored` dict (node to parent). The fuel
bounds the iterations of the Python loop (always finite on a finite graph);
exhausted fuel and the `NetworkXNoPath` raise are both `none`. -/
noncomputable def astarLoop (es : List GEdge) (hfun : ℕ → ℕ → ℝ) (target : ℕ) :
    ℕ → List QEntry → ℕ → List (ℕ × (ℝ × ℝ)) → List (ℕ × Option ℕ) →
      Option (List ℕ)
  | 0, _, _, _, _ => none
  | fuel + 1, queue, ctr, enqueued, explored =>
    match queue with
    | [] => none
    | e :: rest =>
      if e.node = target then
        reconstructPath explored (explored.length + 1) [e.node] e.parent
      else
        let skip : Bool :=
          match explored.find? (fun p => p.1 == e.node) with
          | none => false
          | some p =>
            match p.2 with
            | none => true
            | some _ =>
              match enqueued.find? (fun q => q.1 == e.node) with
              | none => false
              | some q => decide (q.2.1 < e.dist)
        cond skip (astarLoop es hfun target fuel rest ctr enqueued explored)
          (let explored2 := assocInsert explored e.node e.parent
          let st := (neighborsOf es e.node).foldl
            (fun (acc : List QEntry × ℕ × List (ℕ × (ℝ × ℝ))) nbr =>
              let ncost := e.dist + nbr.2
              match acc.2.2.find? (fun q => q.1 == nbr.1) with
              | some q =>
                if q.2.1 ≤ ncost then acc
                else
                  (heapPush acc.1 ⟨ncost + q.2.2, acc.2.1, nbr.1, ncost, some e.node⟩,
                   acc.2.1 + 1, assocInsert acc.2.2 nbr.1 (ncost, q.2.2))
              | none =>
                let hh := hfun nbr.1 target
                (heapPush acc.1 ⟨ncost + hh, acc.2.1, nbr.1, ncost, some e.node⟩,
                 acc.2.1 + 1, assocInsert acc.2.2 nbr.1 (ncost, hh)))
            (rest, ctr, enqueued)
          astarLoop es hfun target fuel st.1 st.2.1 st.2.2 explored2)

/-- `nx.astar_path(G, source, target, heuristic, weight='weight')`: initial
queue `[(0, 0, source, 0, None)]`, counter at 1, empty dicts. -/
noncomputable def astarPath (G : GridGraph) (hfun : ℕ → ℕ → ℝ)
    (source target : ℕ) : Option (List ℕ) :=
  astarLoop G.edges hfun target
    (G.nodes.length * (G.edges.length + 1) + 1)
    [⟨0, 0, source, 0, none⟩] 1 [] []

/-- `find_path(G, nodes, start, goal, depth_map, depth_threshold)` of
`path_calculator.py`. The raising paths — `min` over an empty `nodes` dict
(`ValueError`) and `NetworkXNoPath` — are `none`. -/
noncomputable def findPath (G : GridGraph) (start goal : ℚ × ℚ)
    (depthMap : Option DepthMap) (depthThreshold : ℚ) :
    Option (List (ℚ × ℚ)) :=
  match nodeValues G.nodes with
  | [] => none
  | v :: vs =>
    let startIdx := pyMinBy (fun i => euclidR (coordOf G.attrs i) start) v vs
    let goalIdx := pyMinBy (fun i => euclidR (coordOf G.attrs i) goal) v vs
    match astarPath G (fun u t => euclidR (coordOf G.attrs u) (coordOf G.attrs t))
        startIdx goalIdx with
    | none => none
    | some idxs =>
      let path := idxs.map (fun i => coordOf G.attrs i)
      match depthMap with
      | none => some path
      | some d =>
        if 1 ≤ path.length then
          let r := chooseSafeDirection d depthThreshold
          if statusGet r.2 "center" = false ∧ r.1 ≠ Direction.CENTER then
            some (path.drop 1)
          else some path
        else some path

lemma reconstructPath_none (explored : List (ℕ × Option ℕ)) (fuel : ℕ)
    (acc : List ℕ) : reconstructPath explored fuel acc none = some acc := by
  cases fuel <;> rfl

lemma astarLoop_pop_target (es : List GEdge) (hfun : ℕ → ℕ → ℝ)
    (target fuel : ℕ) (e : QEntry) (rest : List QEntry) (ctr : ℕ)
    (enq : List (ℕ × (ℝ × ℝ))) (explored : List (ℕ × Option ℕ))
    (he : e.node = target) :
    astarLoop es hfun target (fuel + 1) (e :: rest) ctr enq explored
      = reconstructPath explored (explored.length + 1) [e.node] e.parent := by
  simp only [astarLoop]
  rw [if_pos he]

lemma astarPath_self (G : GridGraph) (hfun : ℕ → ℕ → ℝ) (k : ℕ) :
    astarPath G hfun k k = some [k] := by
  rw [astarPath, astarLoop_pop_target G.edges hfun k
    (G.nodes.length * (G.edges.length + 1)) ⟨0, 0, k, 0, none⟩ [] 1 [] [] rfl]
  exact reconstructPath_none _ _ _

lemma findPath_self_of_ne_nil (G : GridGraph) (p : ℚ × ℚ)
    (h : nodeValues G.nodes ≠ []) :
    ∃ c : ℚ × ℚ, findPath G p p none (1/2) = some [c] := by
  obtain ⟨v, vs, hvvs⟩ := List.exists_cons_of_ne_nil h
  refine ⟨coordOf G.attrs (pyMinBy (fun i => euclidR (coordOf G.attrs i) p) v vs), ?_⟩
  have hred : findPath G p p none (1/2)
      = match astarPath G
          (fun u t => euclidR (coordOf G.attrs u) (coordOf G.attrs t))
          (pyMinBy (fun i => euclidR (coordOf G.attrs i) p) v vs)
          (pyMinBy (fun i => euclidR (coordOf G.attrs i) p) v vs) with
        | none => none
        | some idxs => some (idxs.map (fun i => coordOf G.attrs i)) := by
    rw [findPath, hvvs]
  rw [hred, astarPath_self]
  rfl

/-- C7: for every graph returned by `build_grid_x_graph` on accepted
parameters and every coordinate `p`, `find_path(G, nodes, p, p)` with
`start == goal` snaps both endpoints to the same node (the two `min`
computations coincide), A* returns on its first iteration, and the result is
a path of length exactly 1. -/
theorem findPath_start_eq_goal (width length spacing : ℚ) (p : ℚ × ℚ)
    (hs : 0 < spacing) (hw : spacing ≤ width) (hl : spacing ≤ length) :
    ∃ G : GridGraph, buildGridXGraph width length spacing = Except.ok G ∧
      ∃ c : ℚ × ℚ, findPath G p p none (1/2) = some [c] := by
  refine ⟨_, buildGridXGraph_ok width length spacing hs hw hl, ?_⟩
  apply findPath_self_of_ne_nil
  have hsne : spacing ≠ 0 := ne_of_gt hs
  rw [nodeValues]
  intro hnil
  have hc := congrArg List.length hnil
  rw [List.length_map, gridNodes_length hsne, List.length_nil] at hc
  have h1 : 0 < ((pyRound (width / spacing)).toNat + 1)
      * ((pyRound (length / spacing)).toNat + 1) :=
    Nat.mul_pos (Nat.succ_pos _) (Nat.succ_pos _)
  omega

/-- Witness for `findPath_start_eq_goal` at `(1, 1, 1)`, `p = (0, 0)`. -/
theorem findPath_start_eq_goal_witness :
    (0 : ℚ) < 1 ∧
      (∃ G : GridGraph, buildGridXGraph 1 1 1 = Except.ok G ∧
        ∃ c : ℚ × ℚ, findPath G (0, 0) (0, 0) none (1/2) = some [c]) :=
  ⟨by norm_num,
    findPath_start_eq_goal 1 1 1 (0, 0) (by norm_num) (by norm_num) (by norm_num)⟩

/-! ### `rotate_toward` / `move_toward_with_depth` of `drone_navigator.py` -/

/-- A command sent to the Tello drone, recorded as a trace. -/
inductive DroneCmd where
  | takeoff
  | land
  | cw (angle : ℤ)
  | ccw (angle : ℤ)
  | forward (dist : ℤ)
  | moveUp (dist : ℤ)
  | moveDown (dist : ℤ)
  deriving DecidableEq

/-- `math.atan2(y, x)` (signed zeros, which ℝ lacks, aside — no input here
distinguishes them). -/
noncomputable def atan2R (y x : ℝ) : ℝ :=
  if 0 < x then Real.arctan (y / x)
  else if x < 0 then
    if 0 ≤ y then Real.arctan (y / x) + Real.pi
    else Real.arctan (y / x) - Real.pi
  else if 0 < y then Real.pi / 2
  else if y < 0 then -(Real.pi / 2)
  else 0

/-- `math.degrees`. -/
noncomputable def degreesR (r : ℝ) : ℝ := r * (180 / Real.pi)

/-- Python float `%` (sign of the divisor, here used with positive 360). -/
noncomputable def pyModR (a b : ℝ) : ℝ := a - b * ⌊a / b⌋

/-- Python `int()` on a float: truncation toward zero. -/
noncomputable def realToInt (r : ℝ) : ℤ := if r < 0 then ⌈r⌉ else ⌊r⌋

/-- `rotate_toward(drone, target, pos, heading)` (source lines 53-73): the
issued rotation commands and the returned heading. -/
noncomputable def rotateToward (target pos : ℚ × ℚ) (heading : ℝ) :
    List DroneCmd × ℝ :=
  let dx : ℚ := target.1 - pos.1
  let dy : ℚ := target.2 - pos.2
  if |dx| < 1/1000000 ∧ |dy| < 1/1000000 then ([], heading)
  else
    let desired := pyModR (degreesR (atan2R (dx : ℝ) (dy : ℝ))) 360
    let turn := pyModR (desired - heading + 360) 360
    if turn > 180 then
      let delta := 360 - turn
      if delta > 5 then
        ([DroneCmd.ccw (realToInt delta)], pyModR (heading - delta) 360)
      else ([], heading)
    else
      if turn > 5 then
        ([DroneCmd.cw (realToInt turn)], pyModR (heading + turn) 360)
      else ([], heading)

/-- All pixel values of a depth frame, row-major. -/
def depthValues (d : DepthMap) : List ℚ :=
  (List.range d.h).flatMap (fun i => (List.range d.w).map (fun j => d.data i j))

/-- `np.min` over a frame (frames here are nonempty; the 0 default is the
empty-array raise, never read below). -/
def listMin : List ℚ → ℚ
  | [] => 0
  | x :: xs => xs.foldl min x

/-- `np.max` over a frame. -/
def listMax : List ℚ → ℚ
  | [] => 0
  | x :: xs => xs.foldl max x

/-- `normalize_midas_depth` of `post_processor.py`: min-max scale to `[0, 1]`,
or all zeros when the frame is uniform within `1e-6`. -/
def normalizeMidasDepth (d : DepthMap) : DepthMap :=
  let mn := listMin (depthValues d)
  let mx := listMax (depthValues d)
  if mx - mn < 1/1000000 then ⟨d.h, d.w, fun _ _ => 0⟩
  else ⟨d.h, d.w, fun i j => (d.data i j - mn) / (mx - mn)⟩

/-- Free-pixel count of a sector: `free = ~(band >= near_thresh)`. -/
def countFree (d : DepthMap) (nearThresh : ℚ) (rows cols : List ℕ) : ℕ :=
  (rows.flatMap (fun i => cols.map (fun j => d.data i j))).countP
    (fun v => decide (v < nearThresh))

/-- `sector.mean()` of the free mask over rows `[y0, y1)`, columns `[x0, x1)`
(`0.0` for an empty sector). -/
def sectorFreeRatio (d : DepthMap) (nearThresh : ℚ) (y0 y1 x0 x1 : ℕ) : ℚ :=
  if (y1 - y0) * (x1 - x0) = 0 then 0
  else
    (countFree d nearThresh ((List.range (y1 - y0)).map (fun k => y0 + k))
        ((List.range (x1 - x0)).map (fun k => x0 + k)) : ℚ)
      / (((y1 - y0) * (x1 - x0) : ℕ) : ℚ)

/-- `safe_direction(depth_norm, near_thresh, min_free)` of
`post_processor.py`: central band rows `[int(h*0.35), int(h*0.65))`, thirds
by columns, priority center, right, left, else `"none"`. -/
def safeDirection (d : DepthMap) (nearThresh minFree : ℚ) : String :=
  let y0 := (pyTrunc ((d.h : ℚ) * (35/100))).toNat
  let y1 := (pyTrunc ((d.h : ℚ) * (65/100))).toNat
  if minFree ≤ sectorFreeRatio d nearThresh y0 y1 (d.w / 3) (2 * d.w / 3) then
    "center"
  else if minFree ≤ sectorFreeRatio d nearThresh y0 y1 (2 * d.w / 3) d.w then
    "right"
  else if minFree ≤ sectorFreeRatio d nearThresh y0 y1 0 (d.w / 3) then
    "left"
  else "none"

/-- The value `move_toward_with_depth` returns: the `dist < 0.1` and
`move_cm <= 10` early returns are bare `(pos, heading)` pairs, the main paths
are 4-tuples. -/
inductive MoveResult where
  | arrived (pos : ℚ × ℚ) (heading : ℝ)
  | stepped (pos : ℚ × ℚ) (heading : ℝ) (path : List (ℚ × ℚ)) (proceed : Bool)

/-- `move_toward_with_depth(drone, target, pos, path, heading, ...)` (source
lines 110-153), parametrized by the depth frame `safe_depth_capture` yields
and by the `path_re_planner` function (imported in the source but defined
nowhere in the tree). Drone calls are returned as the command trace; the
`none` result is the `NameError` raised when no frame is captured
(`direction` is then read unbound at line 140). -/
noncomputable def moveTowardWithDepth (capture : Option DepthMap)
    (replan : String → List (ℚ × ℚ) → (ℚ × ℚ) → List (ℚ × ℚ))
    (target pos : ℚ × ℚ) (path : List (ℚ × ℚ)) (heading : ℝ) :
    List DroneCmd × Option MoveResult :=
  let dx : ℚ := target.1 - pos.1
  let dy : ℚ := target.2 - pos.2
  let dist : ℝ := hypotR dx dy
  if dist < 1/10 then ([], some (.arrived pos heading))
  else
    let rot := rotateToward target pos heading
    match capture with
    | none => (rot.1, none)
    | some depth =>
      let dir := safeDirection (normalizeMidasDepth depth) (35/100) (65/100)
      if dir = "center" then
        let moveCm : ℤ := min (realToInt (dist * 100)) 500
        if moveCm ≤ 10 then (rot.1, some (.arrived pos rot.2))
        else (rot.1 ++ [DroneCmd.forward moveCm],
              some (.stepped (target.1, target.2) rot.2 path true))
      else
        (rot.1, some (.stepped pos rot.2 (replan dir path pos) false))

lemma atan2R_zero_one : atan2R 0 1 = 0 := by
  rw [atan2R, if_pos (by norm_num : (0:ℝ) < 1)]
  norm_num [Real.arctan_zero]

lemma atan2R_one_zero : atan2R 1 0 = Real.pi / 2 := by
  rw [atan2R, if_neg (by norm_num), if_neg (by norm_num),
    if_pos (by norm_num : (0:ℝ) < 1)]

lemma atan2R_negOne_zero : atan2R (-1) 0 = -(Real.pi / 2) := by
  rw [atan2R, if_neg (by norm_num), if_neg (by norm_num), if_neg (by norm_num),
    if_pos (by norm_num : (-1:ℝ) < 0)]

lemma degreesR_zero : degreesR 0 = 0 := by rw [degreesR]; ring

lemma degreesR_halfPi : degreesR (Real.pi / 2) = 90 := by
  rw [degreesR]; field_simp; ring

lemma degreesR_negHalfPi : degreesR (-(Real.pi / 2)) = -90 := by
  rw [degreesR]; field_simp; ring

lemma pyModR_zero : pyModR (0:ℝ) 360 = 0 := by rw [pyModR]; norm_num

lemma pyModR_90val : pyModR (90:ℝ) 360 = 90 := by rw [pyModR]; norm_num

lemma pyModR_360val : pyModR (360:ℝ) 360 = 0 := by rw [pyModR]; norm_num

lemma pyModR_450val : pyModR (450:ℝ) 360 = 90 := by rw [pyModR]; norm_num

lemma pyModR_neg90val : pyModR (-90:ℝ) 360 = 270 := by rw [pyModR]; norm_num

lemma pyModR_630val : pyModR (630:ℝ) 360 = 270 := by rw [pyModR]; norm_num

lemma realToInt_90val : realToInt (90:ℝ) = 90 := by rw [realToInt]; norm_num

lemma realToInt_100val : realToInt (100:ℝ) = 100 := by rw [realToInt]; norm_num

lemma rotateToward_plusY : rotateToward (0, 1) (0 : ℚ × ℚ) 0 = ([], 0) := by
  simp only [rotateToward]
  norm_num [atan2R_zero_one, degreesR_zero, pyModR_zero, pyModR_360val]

lemma rotateToward_plusX :
    rotateToward (1, 0) (0 : ℚ × ℚ) 0 = ([DroneCmd.cw 90], 90) := by
  simp only [rotateToward]
  norm_num [atan2R_one_zero, degreesR_halfPi, pyModR_90val, pyModR_450val,
    realToInt_90val]

lemma rotateToward_minusX :
    rotateToward (-1, 0) (0 : ℚ × ℚ) 0 = ([DroneCmd.ccw 90], 270) := by
  simp only [rotateToward]
  norm_num [atan2R_negOne_zero, degreesR_negHalfPi, pyModR_neg90val,
    pyModR_630val, realToInt_90val]

lemma hypotR_zero_one : hypotR 0 1 = 1 := by
  rw [hypotR]; norm_num

lemma hypotR_one_zero : hypotR 1 0 = 1 := by
  rw [hypotR]; norm_num

lemma hypotR_negOne_zero : hypotR (-1) 0 = 1 := by
  rw [hypotR]; norm_num

set_option maxRecDepth 40000 in
lemma safeDirection_allZero :
    safeDirection (normalizeMidasDepth allZeroDepth) (7/20) (13/20)
      = "center" := by
  with_unfolding_all decide

/-- C6: with heading 0° at the origin and a uniform (all-clear once
normalized) captured frame: a target 1 m at +Y issues no rotation and exactly
`forward 100`; +X issues a single 90° clockwise rotation then the forward
move, with new heading 90; −X a single 90° counter-clockwise rotation, new
heading 270. -/
theorem moveToward_scenarios (path : List (ℚ × ℚ))
    (replan : String → List (ℚ × ℚ) → (ℚ × ℚ) → List (ℚ × ℚ)) :
    moveTowardWithDepth (some allZeroDepth) replan (0, 1) (0, 0) path 0
      = ([DroneCmd.forward 100], some (MoveResult.stepped (0, 1) 0 path true)) ∧
    moveTowardWithDepth (some allZeroDepth) replan (1, 0) (0, 0) path 0
      = ([DroneCmd.cw 90, DroneCmd.forward 100],
         some (MoveResult.stepped (1, 0) 90 path true)) ∧
    moveTowardWithDepth (some allZeroDepth) replan (-1, 0) (0, 0) path 0
      = ([DroneCmd.ccw 90, DroneCmd.forward 100],
         some (MoveResult.stepped (-1, 0) 270 path true)) := by
  refine ⟨?_, ?_, ?_⟩
  · norm_num [moveTowardWithDepth, hypotR_zero_one]
    rw [safeDirection_allZero]
    norm_num [rotateToward_plusY, realToInt_100val, min_def]
  · norm_num [moveTowardWithDepth, hypotR_one_zero]
    rw [safeDirection_allZero]
    norm_num [rotateToward_plusX, realToInt_100val, min_def]
  · norm_num [moveTowardWithDepth, hypotR_negOne_zero]
    rw [safeDirection_allZero]
    norm_num [rotateToward_minusX, realToInt_100val, min_def]

/-! ### The `run()` navigation loop of `main.py` -/

/-- Environment of the `run()` loop: the successive `get_latest_depth()`
results and which drone commands raise when issued. -/
structure NavEnv where
  depths : ℕ → Option DepthMap
  fails : DroneCmd → Bool

/-- How the modelled loop ends: normal exit (reaching `drone.land()`) or an
exception propagating out of a drone call — `run()` has no `try`/`finally`. -/
inductive LoopExit where
  | finished
  | raised (c : DroneCmd)
  deriving DecidableEq

/-- `math.isclose(a, b, abs_tol=1e-3)` (default `rel_tol=1e-9`). -/
def iscloseQ (a b : ℚ) : Bool :=
  decide (|a - b| ≤ max ((1/1000000000) * max |a| |b|) (1/1000))

/-- `is_facing_target(heading, target, pos)` of `drone_navigator.py`
(default 10° tolerance). -/
noncomputable def isFacingTarget (heading : ℝ) (target pos : ℚ × ℚ) : Bool :=
  let dx : ℚ := target.1 - pos.1
  let dy : ℚ := target.2 - pos.2
  if |dx| < 1/1000000 ∧ |dy| < 1/1000000 then true
  else
    let desired := pyModR (degreesR (atan2R (dx : ℝ) (dy : ℝ))) 360
    let delta0 := pyModR (desired - heading + 360) 360
    let delta := if delta0 > 180 then 360 - delta0 else delta0
    decide (delta ≤ 10)

/-- The `while path:` loop of `run()` (`main.py` lines 113-181), with the
module constants `DEPTH_THRESHOLD = 0.5`, `ALTITUDE_STEP = 0.2` (so
`int(ALTITUDE_STEP*100) = 20`) and `MIN_ALTITUDE = 0.5`. `move_toward`
(imported from `drone_navigator`, which defines no such function) and the
`find_path` replanning call (always from the current position to `GOAL` over
the startup graph) are parameters; `time.sleep` and `fetch_depth_once` have no
visible effect here, and in the turn branch the `prune_facing_node` result is
immediately overwritten by the replan, as in the source. State:
fuel, path, position, heading, altitude, depth-read counter, command trace.
An exception propagates at once as `LoopExit.raised`; only the normal exit
appends `drone.land()`. Exhausted fuel is `none` (the loop itself need not
terminate). -/
noncomputable def runLoop (env : NavEnv)
    (moveTowardFn : (ℚ × ℚ) → (ℚ × ℚ) → ℝ → (ℚ × ℚ) × ℝ)
    (findPathFn : (ℚ × ℚ) → List (ℚ × ℚ)) :
    ℕ → List (ℚ × ℚ) → (ℚ × ℚ) → ℝ → ℚ → ℕ → List DroneCmd →
      List DroneCmd × Option LoopExit
  | 0, _, _, _, _, _, trace => (trace, none)
  | fuel + 1, path, pos, heading, altitude, idx, trace =>
    match path with
    | [] => (trace ++ [DroneCmd.land], some LoopExit.finished)
    | wp0 :: rest =>
      match env.depths idx with
      | none =>
        runLoop env moveTowardFn findPathFn fuel (wp0 :: rest) pos heading
          altitude (idx + 1) trace
      | some depth =>
        let ds := chooseSafeDirection depth (1/2)
        if ds.1 = Direction.CENTER then
          let mv := moveTowardFn wp0 pos heading
          let path2 := cond (iscloseQ mv.1.1 wp0.1 && iscloseQ mv.1.2 wp0.2)
            rest (wp0 :: rest)
          runLoop env moveTowardFn findPathFn fuel path2 mv.1 mv.2 altitude
            (idx + 1) trace
        else if ds.1 = Direction.UP then
          let t2 := trace ++ [DroneCmd.moveUp 20]
          cond (env.fails (DroneCmd.moveUp 20))
            (t2, some (LoopExit.raised (DroneCmd.moveUp 20)))
            (runLoop env moveTowardFn findPathFn fuel (wp0 :: rest) pos heading
              (altitude + 2/10) (idx + 1) t2)
        else if ds.1 = Direction.DOWN ∧ (5/10 : ℚ) ≤ altitude - 2/10 then
          let t2 := trace ++ [DroneCmd.moveDown 20]
          cond (env.fails (DroneCmd.moveDown 20))
            (t2, some (LoopExit.raised (DroneCmd.moveDown 20)))
            (runLoop env moveTowardFn findPathFn fuel (wp0 :: rest) pos heading
              (altitude - 2/10) (idx + 1) t2)
        else if ds.1 = Direction.LEFT ∨ ds.1 = Direction.RIGHT then
          let rcmd := if ds.1 = Direction.RIGHT then DroneCmd.cw 90
            else DroneCmd.ccw 90
          let t2 := trace ++ [rcmd]
          cond (env.fails rcmd) (t2, some (LoopExit.raised rcmd))
            (let heading2 := pyModR
              (heading + (if ds.1 = Direction.RIGHT then 90 else -90)) 360
             match env.depths (idx + 1) with
             | none =>
               runLoop env moveTowardFn findPathFn fuel (wp0 :: rest) pos
                 heading2 altitude (idx + 2) t2
             | some nd =>
               let nds := chooseSafeDirection nd (1/2)
               if nds.1 = Direction.CENTER then
                 let mv := moveTowardFn wp0 pos heading2
                 let path2 := cond (iscloseQ mv.1.1 wp0.1 && iscloseQ mv.1.2 wp0.2)
                   rest (wp0 :: rest)
                 runLoop env moveTowardFn findPathFn fuel path2 mv.1 mv.2
                   altitude (idx + 2) t2
               else
                 runLoop env moveTowardFn findPathFn fuel (findPathFn pos) pos
                   heading2 altitude (idx + 2) t2)
        else if statusGet ds.2 "center" = false then
          runLoop env moveTowardFn findPathFn fuel (findPathFn pos) pos heading
            altitude (idx + 1) trace
        else
          runLoop env moveTowardFn findPathFn fuel (wp0 :: rest) pos heading
            altitude (idx + 1) trace

/-- `run()` from the moment `drone.takeoff()` has succeeded (the vehicle is
airborne): the climb `drone.move_up(int(ALTITUDE * 100))` — 100 cm — then the
navigation loop on the startup plan `path0`. -/
noncomputable def runFromAirborne (env : NavEnv)
    (moveTowardFn : (ℚ × ℚ) → (ℚ × ℚ) → ℝ → (ℚ × ℚ) × ℝ)
    (findPathFn : (ℚ × ℚ) → List (ℚ × ℚ))
    (path0 : List (ℚ × ℚ)) (fuel : ℕ) : List DroneCmd × Option LoopExit :=
  cond (env.fails (DroneCmd.moveUp 100))
    ([DroneCmd.moveUp 100], some (LoopExit.raised (DroneCmd.moveUp 100)))
    (runLoop env moveTowardFn findPathFn fuel path0 (0, 0) 0 1 0
      [DroneCmd.moveUp 100])

/-- A depth frame whose center sample reads 0 (blocked at threshold 0.5) while
the four side samples read 1 (clear): `choose_safe_direction` rule 3 gives
`Direction.UP`. -/
def upDepth : DepthMap := ⟨11, 11, fun i j => if i = 5 ∧ j = 5 then 0 else 1⟩

/-- An environment where every depth read returns `upDepth` and exactly the
20 cm climb `move_up(20)` raises. -/
def failUpEnv : NavEnv :=
  ⟨fun _ => some upDepth, fun c => decide (c = DroneCmd.moveUp 20)⟩

lemma chooseSafeDirection_upDepth :
    (chooseSafeDirection upDepth (1/2)).1 = Direction.UP := by
  with_unfolding_all decide

/-- C4 (divergence): once airborne, a fatal error path exists with no landing
attempt. With depth frames whose verdict is `UP` and a failing
`move_up(20)`, the loop raises on its first iteration and control returns
with the trace `[move_up(100), move_up(20)]` — no `land` was attempted, for
any behaviour of `move_toward` and of the replanner: `run()` has no
`try`/`finally`, so `drone.land()` is reached only on normal loop exit. -/
theorem runFromAirborne_fatal_no_land
    (moveTowardFn : (ℚ × ℚ) → (ℚ × ℚ) → ℝ → (ℚ × ℚ) × ℝ)
    (findPathFn : (ℚ × ℚ) → List (ℚ × ℚ)) :
    runFromAirborne failUpEnv moveTowardFn findPathFn [(5/2, 4)] 5
      = ([DroneCmd.moveUp 100, DroneCmd.moveUp 20],
         some (LoopExit.raised (DroneCmd.moveUp 20))) ∧
    DroneCmd.land ∉ [DroneCmd.moveUp 100, DroneCmd.moveUp 20] := by
  constructor
  · with_unfolding_all rfl
  · decide
